import Mathlib

/-! Commit-log registry (`src/tightdb/commit_log.cpp`)

A shallow embedding of `WriteLogRegistry`, the in-memory store of the commit
logs of one database, of `RegistryRegistry`, the directory of the registries by
database path, and of the transaction methods of `WriteLogCollector`, with
proofs about the window of retained versions, the directory and the bytes a
commit hands over.

Conventions of the embedding

* `version_type` (`uint_fast64_t`) and `std::size_t` are taken to be 64 bits wide:
  their values are natural numbers below `VERSION_MOD = 2 ^ 64`; every addition the
  source performs on a version or an index is written with an explicit `% VERSION_MOD`,
  and the one subtraction that is not guarded by an assertion is written as a wrapping
  subtraction.
* `char*` is an address, a natural number, `0` being the null pointer.
* `std::vector<CommitEntry>` is a `List CommitEntry`.
* `TIGHTDB_ASSERT` is taken as enabled: a false assertion ends the call with
  `Fault.assertion`.  An access to the vector outside `[0, size)` (undefined
  behaviour in the source) ends it with `Fault.out_of_range`.
* `delete[] p` is recorded: the operations that free memory return, next to the
  new registry, the list of addresses they passed to `delete[]`, in order.
* a `for (version = a; version <= b; version++)` loop over a wrapping counter
  needs a bound on the iterations to be a total function; `for_versions` takes
  one, and the operations pass `VERSION_MOD + 1`, one full cycle of the counter.
  When `b < 2 ^ 64 - 1` the loop visits `a, ..., b` and leaves through its test
  (`for_versions_eq_run`); when `b = 2 ^ 64 - 1` the test never fails and the loop
  can only end in a fault (`for_versions_max_not_ok`).

The file has three parts: the embedding of the source (registry, directory, collector),
the definitions used to state properties (reachable states, invariants, the closed form of
the watermark advance, sample states), and the lemmas and theorems.
-/

namespace tightdb

/-- Number of values of `version_type` (`uint_fast64_t`) and of `std::size_t`. -/
def VERSION_MOD : Nat := 2 ^ 64

/-- The ways a call can end other than by returning. -/
inductive Fault where
  /-- A `TIGHTDB_ASSERT` was false. -/
  | assertion
  /-- The vector was accessed outside `[0, size)`. -/
  | out_of_range
  /-- The iteration bound of `for_versions` was used up. -/
  | no_fuel
deriving DecidableEq, Repr

deriving instance DecidableEq for Except

/-- The entry of one commit: `struct CommitEntry { std::size_t sz; char* data; }`. -/
structure CommitEntry where
  sz : Nat
  data : Nat
deriving DecidableEq, Repr

/-- A non-owning view, `BinaryData(data, size)`. -/
structure BinaryData where
  data : Nat
  size : Nat
deriving DecidableEq, Repr

/-- The data members of `class WriteLogRegistry` (the mutex apart). -/
structure WriteLogRegistry where
  m_commits : List CommitEntry
  m_array_start : Nat
  m_oldest_version : Nat
  m_newest_version : Nat
deriving DecidableEq, Repr

/-- The loop `for (version = first; version <= last; version++) body`, over a
64-bit counter, with at most `fuel` iterations. -/
def for_versions {σ : Type} (body : Nat → σ → Except Fault σ) (last : Nat) :
    Nat → Nat → σ → Except Fault σ
  | 0, _, _ => .error .no_fuel
  | fuel + 1, version, s =>
    if version ≤ last then
      match body version s with
      | .ok s' => for_versions body last fuel ((version + 1) % VERSION_MOD) s'
      | .error e => .error e
    else .ok s

/-- The value `a - b` of two unsigned 64-bit numbers. -/
def wrapping_sub (a b : Nat) : Nat := (a + VERSION_MOD - b % VERSION_MOD) % VERSION_MOD

/-- The call `v.resize(n)` of a vector of entries: new slots are value-initialised. -/
def vector_resize (v : List CommitEntry) (n : Nat) : List CommitEntry :=
  if n ≤ v.length then v.take n else v ++ List.replicate (n - v.length) ⟨0, 0⟩

/-- The call `std::copy(v.begin() + b, v.begin() + e, v.begin())`: the slots
`[b, e)` are copied, front to back, over the slots `[0, e - b)`. -/
def vector_copy_down (v : List CommitEntry) (b e : Nat) : Except Fault (List CommitEntry) :=
  if b ≤ e ∧ e ≤ v.length then
    .ok ((v.drop b).take (e - b) ++ v.drop (e - b))
  else .error .out_of_range

/-- The body shared by the two loops that release commits:
`if (m_commits[idx].data) delete[] m_commits[idx].data;`
`m_commits[idx].data = 0; m_commits[idx].sz = 0;`
on the pair of the vector and the addresses deleted so far. -/
def release_slot (idx : Nat) (st : List CommitEntry × List Nat) :
    Except Fault (List CommitEntry × List Nat) :=
  match st.1[idx]? with
  | none => .error .out_of_range
  | some e => .ok (st.1.set idx ⟨0, 0⟩, if e.data ≠ 0 then st.2 ++ [e.data] else st.2)

namespace WriteLogRegistry

/-- The constructor `WriteLogRegistry::WriteLogRegistry()`. -/
def ctor : WriteLogRegistry :=
  { m_commits := [], m_array_start := 0, m_oldest_version := 0, m_newest_version := 0 }

/-- The index into the array for the selected version, `to_index`. -/
def to_index (r : WriteLogRegistry) (version : Nat) : Except Fault Nat :=
  if version ≥ r.m_array_start then .ok (version - r.m_array_start) else .error .assertion

/-- The test `holds_some_commits`. -/
def holds_some_commits (r : WriteLogRegistry) : Bool := r.m_oldest_version != 0

/-- The test `is_a_known_commit`. -/
def is_a_known_commit (r : WriteLogRegistry) (version : Nat) : Bool :=
  r.holds_some_commits && decide (version ≥ r.m_oldest_version)
    && decide (version ≤ r.m_newest_version)

/-- One iteration of the releasing loops: `to_index`, then `release_slot`. -/
def release_version (r : WriteLogRegistry) (version : Nat)
    (st : List CommitEntry × List Nat) : Except Fault (List CommitEntry × List Nat) :=
  match r.to_index version with
  | .error e => .error e
  | .ok idx => release_slot idx st

/-- The method `reset_log_management`; the second component is what was deleted. -/
def reset_log_management (r : WriteLogRegistry) : Except Fault (WriteLogRegistry × List Nat) :=
  if r.m_oldest_version ≠ 0 then
    match for_versions r.release_version r.m_newest_version (VERSION_MOD + 1)
        r.m_oldest_version (r.m_commits, []) with
    | .error e => .error e
    | .ok (commits, deleted) =>
      .ok ({ r with m_commits := commits, m_newest_version := 0, m_oldest_version := 0 }, deleted)
  else .ok (r, [])

/-- The method `add_commit(version, data, sz)`. -/
def add_commit (r : WriteLogRegistry) (version data sz : Nat) : Except Fault WriteLogRegistry :=
  if !r.holds_some_commits then
    .ok { m_commits := r.m_commits ++ [⟨sz, data⟩], m_array_start := version,
          m_oldest_version := version, m_newest_version := version }
  else if version = (1 + r.m_newest_version) % VERSION_MOD then
    .ok { r with m_commits := r.m_commits ++ [⟨sz, data⟩], m_newest_version := version }
  else .error .assertion

/-- What one iteration of the loop of `get_commit_entries` stores in `commits[dest_idx]`. -/
def commit_view (r : WriteLogRegistry) (version : Nat) : Except Fault BinaryData :=
  if r.is_a_known_commit version then
    match r.to_index version with
    | .error e => .error e
    | .ok idx =>
      match r.m_commits[idx]? with
      | none => .error .assertion
      | some entry => .ok ⟨entry.data, entry.sz⟩
  else .error .assertion

/-- One iteration of the loop of `get_commit_entries`, on the views written so far. -/
def push_view (r : WriteLogRegistry) (version : Nat) (out : List BinaryData) :
    Except Fault (List BinaryData) :=
  match r.commit_view version with
  | .error e => .error e
  | .ok b => .ok (out ++ [b])

/-- The method `get_commit_entries(from, to, commits)`; the result is the content of
`commits[0 .. dest_idx)` at the end. -/
def get_commit_entries (r : WriteLogRegistry) (from_version to_version : Nat) :
    Except Fault (List BinaryData) :=
  for_versions r.push_view to_version (VERSION_MOD + 1) ((from_version + 1) % VERSION_MOD) []

/-- The method `set_oldest_version_needed(last_seen_version_number)`; the second
component is what was deleted. -/
def set_oldest_version_needed (r : WriteLogRegistry) (last_seen_version_number : Nat) :
    Except Fault (WriteLogRegistry × List Nat) :=
  if !r.holds_some_commits then .ok (r, [])
  else
    let last_to_clean := last_seen_version_number
    match for_versions r.release_version last_to_clean (VERSION_MOD + 1)
        r.m_oldest_version (r.m_commits, []) with
    | .error e => .error e
    | .ok (commits, deleted) =>
      if last_to_clean = r.m_newest_version then
        .ok ({ r with m_oldest_version := 0, m_array_start := 0,
                      m_commits := vector_resize commits 0 }, deleted)
      else
        let r1 : WriteLogRegistry :=
          { r with m_commits := commits, m_oldest_version := (last_to_clean + 1) % VERSION_MOD }
        match r1.to_index r1.m_oldest_version with
        | .error e => .error e
        | .ok first =>
          if first > r1.m_commits.length / 2 then
            match r1.to_index r1.m_newest_version with
            | .error e => .error e
            | .ok last =>
              match vector_copy_down r1.m_commits first ((last + 1) % VERSION_MOD) with
              | .error e => .error e
              | .ok copied =>
                .ok ({ r1 with
                        m_commits := vector_resize copied
                          ((wrapping_sub r1.m_newest_version r1.m_oldest_version + 1)
                            % VERSION_MOD),
                        m_array_start := r1.m_oldest_version }, deleted)
          else .ok (r1, deleted)

end WriteLogRegistry

/-! ## `RegistryRegistry`

The map `std::map<std::string, WriteLogRegistry*>` is kept as the list of its pairs, without
repeated keys; the order of the pairs, which the source uses only in the destructor, is not
the sorted order of the map.  A `WriteLogRegistry*` is an address. -/

/-- The search `m.find(key)`: the mapped pointer, or `none` for `m.end()`. -/
def map_find : List (String × Nat) → String → Option Nat
  | [], _ => none
  | (k, v) :: m, key => if k = key then some v else map_find m key

/-- The call `m.erase(key)`. -/
def map_erase (m : List (String × Nat)) (key : String) : List (String × Nat) :=
  m.filter (fun e => e.1 ≠ key)

/-- The assignment `m[key] = value`. -/
def map_assign (m : List (String × Nat)) (key : String) (value : Nat) : List (String × Nat) :=
  (key, value) :: map_erase m key

/-- The data member of `class RegistryRegistry` (the mutex apart). -/
structure RegistryRegistry where
  m_registries : List (String × Nat)
deriving DecidableEq, Repr

namespace RegistryRegistry

/-- The object `globalRegistry` before any call. -/
def globalRegistry : RegistryRegistry := { m_registries := [] }

/-- The method `get(filepath)`: the pointer it returns and the directory afterwards.  The
argument `fresh` is the address of the object that `new WriteLogRegistry` constructs; it is
used only when the path is absent. -/
def get (d : RegistryRegistry) (filepath : String) (fresh : Nat) : Nat × RegistryRegistry :=
  match map_find d.m_registries filepath with
  | some registry => (registry, d)
  | none => (fresh, { m_registries := map_assign d.m_registries filepath fresh })

/-- The method `add(filepath, registry)`. -/
def add (d : RegistryRegistry) (filepath : String) (registry : Nat) : RegistryRegistry :=
  { m_registries := map_assign d.m_registries filepath registry }

/-- The method `remove(filepath)`. -/
def remove (d : RegistryRegistry) (filepath : String) : RegistryRegistry :=
  { m_registries := map_erase d.m_registries filepath }

end RegistryRegistry

/-! ## `WriteLogCollector`

The class `util::Buffer<char>` and the method `SharedGroup::do_rollback_and_continue_as_read`
are used by the collector but are not part of `commit_log.cpp`; they are modelled from the
specification.  A byte is a natural number; a pointer into the block of the buffer is an
address, the address of the block plus an offset; the sizes are not reduced modulo `2 ^ 64`,
the bytes they count being in memory. -/

/-- Modelled from the spec: the two choices a growing `util::Buffer` makes and the
specification leaves open ("grows the buffer geometrically if needed"): the capacity it
proposes from the current one, and the address of the block of a given capacity.  The
address is a function of the capacity alone, so this model does not express that the
allocator never returns the address of a block that is still owned; the theorems about the
collector follow one block, from `do_begin_write_transact` to the commit that gives it
away, and none of them compares the addresses of two blocks. -/
structure Growth where
  capacity : Nat → Nat
  new_block : Nat → Nat

/-- Modelled from the spec: `util::Buffer<char>`, "a growable byte buffer owned by the
collector": the address of its block (0 when it has none) and the bytes of the block, whose
number is `size()`. -/
structure Buffer where
  m_data : Nat
  m_bytes : List Nat
deriving DecidableEq, Repr

namespace Buffer

/-- Modelled from the spec: `data()`, the address of the block. -/
def data (b : Buffer) : Nat := b.m_data

/-- Modelled from the spec: `size()`, the capacity of the block. -/
def size (b : Buffer) : Nat := b.m_bytes.length

/-- Modelled from the spec: `release()` gives the block away ("ownership of its contents is
transferred to the registry") and leaves the buffer without one. -/
def release (b : Buffer) : Nat × Buffer := (b.m_data, { m_data := 0, m_bytes := [] })

/-- Modelled from the spec: `reserve_extra(used_size, min_extra_capacity)` "grows the buffer
geometrically if needed, preserving all previously written bytes": when the capacity is
below `used_size + min_extra_capacity` the buffer gets a new block, at least that large,
that starts with the first `used_size` bytes of the old one. -/
def reserve_extra (g : Growth) (b : Buffer) (used_size min_extra_capacity : Nat) : Buffer :=
  if used_size + min_extra_capacity ≤ b.size then b
  else
    let capacity := max (g.capacity b.size) (used_size + min_extra_capacity)
    { m_data := g.new_block capacity,
      m_bytes := b.m_bytes.take used_size ++
        List.replicate (capacity - (b.m_bytes.take used_size).length) 0 }

/-- The call `std::copy(data, data + size, dest)` for an address `dest` that is to lie in the
block of the buffer; a copy that leaves the block faults. -/
def copy_in (b : Buffer) (dest : Nat) (data : List Nat) : Except Fault Buffer :=
  if b.m_data ≤ dest ∧ dest - b.m_data + data.length ≤ b.size then
    .ok { b with m_bytes := b.m_bytes.take (dest - b.m_data) ++ data ++
            b.m_bytes.drop (dest - b.m_data + data.length) }
  else .error .out_of_range

end Buffer

/-- The data members of `class WriteLogCollector` that the transaction calls use:
`m_transact_log_buffer`, the two pointers `m_transact_log_free_begin` and
`m_transact_log_free_end` of the base class, and, for `m_registry`, the registry it points
to. -/
structure WriteLogCollector where
  m_transact_log_buffer : Buffer
  m_transact_log_free_begin : Nat
  m_transact_log_free_end : Nat
  m_registry : WriteLogRegistry
deriving DecidableEq, Repr

namespace WriteLogCollector

/-- The method `do_begin_write_transact`. -/
def do_begin_write_transact (c : WriteLogCollector) : WriteLogCollector :=
  { c with
    m_transact_log_free_begin := c.m_transact_log_buffer.data,
    m_transact_log_free_end := c.m_transact_log_buffer.data + c.m_transact_log_buffer.size }

/-- The method `transact_log_reserve(n)`. -/
def transact_log_reserve (g : Growth) (c : WriteLogCollector) (n : Nat) : WriteLogCollector :=
  let data := c.m_transact_log_buffer.data
  let size := c.m_transact_log_free_begin - data
  let buffer := c.m_transact_log_buffer.reserve_extra g size n
  let data := buffer.data
  { c with
    m_transact_log_buffer := buffer,
    m_transact_log_free_begin := data + size,
    m_transact_log_free_end := data + buffer.size }

/-- The method `do_transact_log_reserve(sz)`. -/
def do_transact_log_reserve (g : Growth) (c : WriteLogCollector) (sz : Nat) :
    WriteLogCollector :=
  c.transact_log_reserve g sz

/-- The method `do_transact_log_append(data, size)`, the bytes `data[0 .. size)` being given
as a list. -/
def do_transact_log_append (g : Growth) (c : WriteLogCollector) (data : List Nat) :
    Except Fault WriteLogCollector :=
  let c1 := c.transact_log_reserve g data.length
  match c1.m_transact_log_buffer.copy_in c1.m_transact_log_free_begin data with
  | .error e => .error e
  | .ok buffer =>
    .ok { c1 with
          m_transact_log_buffer := buffer,
          m_transact_log_free_begin := c1.m_transact_log_free_begin + data.length }

/-- The method `do_commit_write_transact(sg, orig_version)`: the version it returns and the
collector afterwards, its registry included. -/
def do_commit_write_transact (c : WriteLogCollector) (orig_version : Nat) :
    Except Fault (Nat × WriteLogCollector) :=
  let released := c.m_transact_log_buffer.release
  let data := released.1
  let sz := c.m_transact_log_free_begin - data
  let new_version := (orig_version + 1) % VERSION_MOD
  match c.m_registry.add_commit new_version data sz with
  | .error e => .error e
  | .ok registry =>
    .ok (new_version, { c with m_transact_log_buffer := released.2, m_registry := registry })

/-- The method `do_rollback_write_transact(sg)`: the range `[data, free_begin)` it hands to
`sg.do_rollback_and_continue_as_read`, and the collector afterwards.  Modelled from the spec:
that method of the storage engine is "outside this component's responsibility"; it is given
the two pointers and touches neither the collector nor its registry. -/
def do_rollback_write_transact (c : WriteLogCollector) : (Nat × Nat) × WriteLogCollector :=
  ((c.m_transact_log_buffer.data, c.m_transact_log_free_begin), c)

end WriteLogCollector

/-! ## Specification-side definitions -/

/-- The iterations of a loop body over an explicit list of versions. -/
def run_versions {σ : Type} (body : Nat → σ → Except Fault σ) : List Nat → σ → Except Fault σ
  | [], s => .ok s
  | v :: vs, s =>
    match body v s with
    | .ok s' => run_versions body vs s'
    | .error e => .error e

/-- The vector after the slots `i, i + 1, ..., i + n - 1` were released in turn. -/
def zero_range : List CommitEntry → Nat → Nat → List CommitEntry
  | cs, _, 0 => cs
  | cs, i, n + 1 => zero_range (cs.set i ⟨0, 0⟩) (i + 1) n

/-- The address a slot hands to `delete[]` when it is released: none when null. -/
def slot_address (cs : List CommitEntry) (i : Nat) : List Nat :=
  match cs[i]? with
  | some e => if e.data ≠ 0 then [e.data] else []
  | none => []

/-- The addresses deleted when the slots `i, ..., i + n - 1` are released in turn. -/
def freed_range : List CommitEntry → Nat → Nat → List Nat
  | _, _, 0 => []
  | cs, i, n + 1 => slot_address cs i ++ freed_range cs (i + 1) n

/-- The view of an entry. -/
def CommitEntry.view (e : CommitEntry) : BinaryData := ⟨e.data, e.sz⟩

/-- The window invariant of a registry: when some version is retained, the base offset is at
most the oldest version, the oldest is at most the newest, and every version of the window
has its index inside the backing vector. -/
def WindowInv (r : WriteLogRegistry) : Prop :=
  r.m_oldest_version ≠ 0 →
    r.m_array_start ≤ r.m_oldest_version ∧ r.m_oldest_version ≤ r.m_newest_version ∧
    ∀ v, r.m_oldest_version ≤ v → v ≤ r.m_newest_version →
      v - r.m_array_start < r.m_commits.length

/-- The members of a registry are values of their 64-bit types. -/
def Typed (r : WriteLogRegistry) : Prop :=
  r.m_array_start < VERSION_MOD ∧ r.m_oldest_version < VERSION_MOD ∧
  r.m_newest_version < VERSION_MOD ∧ r.m_commits.length < VERSION_MOD

instance (r : WriteLogRegistry) : Decidable (Typed r) := by
  unfold Typed
  infer_instance

/-- What `set_oldest_version_needed r k` returns on a non-empty window for a watermark
`oldest_version - 1 <= k <= newest_version`: the slots of the versions up to `k` are
released, then the window is cleared, compacted or left in place. -/
def advance_result (r : WriteLogRegistry) (k : Nat) : WriteLogRegistry × List Nat :=
  let z := zero_range r.m_commits (r.m_oldest_version - r.m_array_start)
    (k + 1 - r.m_oldest_version)
  let d := freed_range r.m_commits (r.m_oldest_version - r.m_array_start)
    (k + 1 - r.m_oldest_version)
  if k = r.m_newest_version then
    ({ m_commits := [], m_array_start := 0, m_oldest_version := 0,
       m_newest_version := r.m_newest_version }, d)
  else if k + 1 - r.m_array_start > r.m_commits.length / 2 then
    ({ m_commits := (z.drop (k + 1 - r.m_array_start)).take (r.m_newest_version - k),
       m_array_start := k + 1, m_oldest_version := k + 1,
       m_newest_version := r.m_newest_version }, d)
  else
    ({ m_commits := z, m_array_start := r.m_array_start, m_oldest_version := k + 1,
       m_newest_version := r.m_newest_version }, d)

/-- The states a registry can be in after calls of `add_commit`, `get_commit_entries` and
`set_oldest_version_needed` that meet their preconditions, starting from the constructor.
The second index is a history variable: for every version, the entry that was committed
under it and is still retained, if any. -/
inductive Reachable : WriteLogRegistry → (Nat → Option CommitEntry) → Prop
  | fresh : Reachable WriteLogRegistry.ctor (fun _ => none)
  | add_commit (r : WriteLogRegistry) (g : Nat → Option CommitEntry)
      (version data sz : Nat) (r' : WriteLogRegistry) :
      Reachable r g → 1 ≤ version → version < VERSION_MOD →
      (r.m_oldest_version ≠ 0 → version = r.m_newest_version + 1) →
      r.add_commit version data sz = .ok r' →
      Reachable r' (fun v => if v = version then some ⟨sz, data⟩ else g v)
  | get_commit_entries (r : WriteLogRegistry) (g : Nat → Option CommitEntry)
      (from_version to_version : Nat) (views : List BinaryData) :
      Reachable r g → r.get_commit_entries from_version to_version = .ok views →
      Reachable r g
  | set_oldest_version_needed (r : WriteLogRegistry) (g : Nat → Option CommitEntry)
      (k : Nat) (r' : WriteLogRegistry) (deleted : List Nat) :
      Reachable r g → r.m_oldest_version ≤ k + 1 → k ≤ r.m_newest_version →
      r.set_oldest_version_needed k = .ok (r', deleted) →
      Reachable r' (fun v => if v ≤ k then none else g v)

/-- The invariant of the reachable states, with the history variable. -/
structure StrongInv (r : WriteLogRegistry) (g : Nat → Option CommitEntry) : Prop where
  typed : r.m_array_start < VERSION_MOD ∧ r.m_oldest_version < VERSION_MOD ∧
    r.m_newest_version < VERSION_MOD
  empty : r.m_oldest_version = 0 →
    r.m_commits = [] ∧ r.m_array_start = 0 ∧ ∀ v, g v = none
  window : r.m_oldest_version ≠ 0 →
    1 ≤ r.m_array_start ∧ r.m_array_start ≤ r.m_oldest_version ∧
    r.m_oldest_version ≤ r.m_newest_version ∧
    r.m_commits.length = r.m_newest_version - r.m_array_start + 1 ∧
    ∀ v, g v = if r.m_oldest_version ≤ v ∧ v ≤ r.m_newest_version
      then r.m_commits[v - r.m_array_start]? else none

/-- The call sequence `add_commit(first, p1)`, `add_commit(first + 1, p2)`, ... for a list
of payloads, each payload given by its address and its size. -/
def add_commits (r : WriteLogRegistry) (first : Nat) :
    List CommitEntry → Except Fault WriteLogRegistry
  | [] => .ok r
  | p :: ps =>
    match r.add_commit first p.data p.sz with
    | .ok r' => add_commits r' (first + 1) ps
    | .error e => .error e

/-- The registry after `add_commit(1, "a")`, `add_commit(2, "bb")`, `add_commit(3, "ccc")`
on a new registry, the three buffers being at the addresses 101, 102 and 103. -/
def sample_abc : WriteLogRegistry :=
  { m_commits := [⟨1, 101⟩, ⟨2, 102⟩, ⟨3, 103⟩], m_array_start := 1, m_oldest_version := 1,
    m_newest_version := 3 }

/-- The retained entries of `sample_abc`. -/
def sample_abc_log : Nat → Option CommitEntry :=
  fun v => if v = 3 then some ⟨3, 103⟩ else if v = 2 then some ⟨2, 102⟩ else
    if v = 1 then some ⟨1, 101⟩ else none

/-- The registry after `add_commit(1, "a")` and `set_oldest_version_needed(1)` on a new
registry: the window is empty and `m_newest_version` is still 1. -/
def sample_released : WriteLogRegistry :=
  { m_commits := [], m_array_start := 0, m_oldest_version := 0, m_newest_version := 1 }

/-- The retained entries of `sample_released`: none. -/
def sample_released_log : Nat → Option CommitEntry :=
  fun v => if v ≤ 1 then none else if v = 1 then some ⟨1, 101⟩ else none

/-- The registry after one `add_commit(version, "a")` on a new registry. -/
def sample_seeded (version : Nat) : WriteLogRegistry :=
  { m_commits := [⟨1, 101⟩], m_array_start := version, m_oldest_version := version,
    m_newest_version := version }

/-- The retained entries of `sample_seeded version`. -/
def sample_seeded_log (version : Nat) : Nat → Option CommitEntry :=
  fun v => if v = version then some ⟨1, 101⟩ else none

/-- The registry after the commits of the versions 1 to 4 and
`set_oldest_version_needed(2)`: the versions 3 and 4 are retained, the vector is not
compacted, and the slots of the versions 1 and 2 are released. -/
def sample_tail : WriteLogRegistry :=
  { m_commits := [⟨0, 0⟩, ⟨0, 0⟩, ⟨3, 103⟩, ⟨4, 104⟩], m_array_start := 1,
    m_oldest_version := 3, m_newest_version := 4 }

/-- The directories reachable from the empty one by calls of `get`, `add` and `remove`.  The
second index is a history variable: for every path, whether its present mapping was
installed by `add`.  When `get` constructs a registry, its address is the address of none of
the registries that the directory constructed itself and still maps: those objects are
alive, and `new` returns the address of no live object. -/
inductive DirReachable : RegistryRegistry → (String → Bool) → Prop
  | init : DirReachable RegistryRegistry.globalRegistry (fun _ => false)
  | get (d : RegistryRegistry) (installed : String → Bool) (filepath : String) (fresh : Nat) :
      DirReachable d installed →
      (∀ q p, installed q = false → map_find d.m_registries q = some p → p ≠ fresh) →
      DirReachable (d.get filepath fresh).2
        (fun q => if q = filepath ∧ map_find d.m_registries filepath = none then false
          else installed q)
  | add (d : RegistryRegistry) (installed : String → Bool) (filepath : String)
      (registry : Nat) :
      DirReachable d installed →
      DirReachable (d.add filepath registry)
        (fun q => if q = filepath then true else installed q)
  | remove (d : RegistryRegistry) (installed : String → Bool) (filepath : String) :
      DirReachable d installed →
      DirReachable (d.remove filepath) (fun q => if q = filepath then false else installed q)

/-- The call sequence `do_transact_log_append(d1)`, ..., `do_transact_log_append(dn)`. -/
def append_all (g : Growth) (c : WriteLogCollector) :
    List (List Nat) → Except Fault WriteLogCollector
  | [] => .ok c
  | d :: ds =>
    match c.do_transact_log_append g d with
    | .ok c' => append_all g c' ds
    | .error e => .error e

/-- The collector is inside a write transaction in which the bytes `written` were appended:
the cursor `m_transact_log_free_begin` is `written.length` bytes after the start of the
block, inside it, and the block starts with `written`. -/
def Collecting (c : WriteLogCollector) (written : List Nat) : Prop :=
  c.m_transact_log_free_begin = c.m_transact_log_buffer.m_data + written.length ∧
  written.length ≤ c.m_transact_log_buffer.m_bytes.length ∧
  c.m_transact_log_buffer.m_bytes.take written.length = written

/-- The registry after the commits of the versions 1 to 4 on a new registry, the four
buffers being at the addresses 101 to 104. -/
def sample_four : WriteLogRegistry :=
  { m_commits := [⟨1, 101⟩, ⟨2, 102⟩, ⟨3, 103⟩, ⟨4, 104⟩], m_array_start := 1,
    m_oldest_version := 1, m_newest_version := 4 }

/-- The retained entries of `sample_four`. -/
def sample_four_log : Nat → Option CommitEntry :=
  fun v => if v = 4 then some ⟨4, 104⟩ else sample_abc_log v

/-! ## Lemmas -/

theorem for_versions_gt {σ : Type} (body : Nat → σ → Except Fault σ) (last fuel first : Nat)
    (s : σ) (h : last < first) : for_versions body last (fuel + 1) first s = .ok s := by
  simp [for_versions, Nat.not_le.mpr h]

theorem for_versions_eq_run {σ : Type} (body : Nat → σ → Except Fault σ) (last : Nat)
    (hlast : last + 1 < VERSION_MOD) :
    ∀ (fuel first : Nat) (s : σ), last + 1 - first < fuel →
      for_versions body last fuel first s
        = run_versions body (List.range' first (last + 1 - first)) s := by
  intro fuel
  induction fuel with
  | zero => intro first s h; omega
  | succ fuel ih =>
    intro first s h
    by_cases hle : first ≤ last
    · have hn : last + 1 - first = (last + 1 - (first + 1)) + 1 := by omega
      have hmod : (first + 1) % VERSION_MOD = first + 1 := Nat.mod_eq_of_lt (by omega)
      rw [hn, List.range'_succ]
      simp only [for_versions, hle, if_true, run_versions, hmod]
      cases hb : body first s with
      | error e => rfl
      | ok s' => exact ih (first + 1) s' (by omega)
    · have hn : last + 1 - first = 0 := by omega
      simp [for_versions, hle, hn, run_versions]

/-- A loop whose upper bound is the largest 64-bit value never leaves through its test. -/
theorem for_versions_max_not_ok {σ : Type} (body : Nat → σ → Except Fault σ) :
    ∀ (fuel first : Nat) (s s' : σ), first < VERSION_MOD →
      for_versions body (VERSION_MOD - 1) fuel first s ≠ .ok s' := by
  intro fuel
  induction fuel with
  | zero => intro first s s' _ h; simp [for_versions] at h
  | succ fuel ih =>
    intro first s s' hf h
    have hle : first ≤ VERSION_MOD - 1 := by omega
    simp only [for_versions, hle, if_true] at h
    cases hb : body first s with
    | error e => rw [hb] at h; simp at h
    | ok s1 =>
      rw [hb] at h
      exact ih _ s1 s' (Nat.mod_lt _ (by unfold VERSION_MOD; norm_num)) h

theorem zero_range_length : ∀ (n : Nat) (cs : List CommitEntry) (i : Nat),
    (zero_range cs i n).length = cs.length := by
  intro n
  induction n with
  | zero => intro cs i; rfl
  | succ n ih => intro cs i; simp [zero_range, ih]

theorem zero_range_getElem? : ∀ (n : Nat) (cs : List CommitEntry) (i j : Nat),
    (zero_range cs i n)[j]? =
      if i ≤ j ∧ j < i + n ∧ j < cs.length then some ⟨0, 0⟩ else cs[j]? := by
  intro n
  induction n with
  | zero =>
    intro cs i j
    have h : ¬ (i ≤ j ∧ j < i + 0 ∧ j < cs.length) := by omega
    simp only [zero_range, h, if_false]
  | succ n ih =>
    intro cs i j
    simp only [zero_range, ih, List.length_set]
    by_cases hij : i = j
    · subst hij
      by_cases hlt : i < cs.length
      · simp [hlt, List.getElem?_set]
      · have : cs[i]? = none := List.getElem?_eq_none (by omega)
        simp [hlt, List.getElem?_set, this]
    · rw [List.getElem?_set_ne hij]
      by_cases h1 : i + 1 ≤ j ∧ j < i + 1 + n ∧ j < cs.length
      · have h2 : i ≤ j ∧ j < i + (n + 1) ∧ j < cs.length := by omega
        simp [h1, h2]
      · have h2 : ¬ (i ≤ j ∧ j < i + (n + 1) ∧ j < cs.length) := by omega
        simp [h1, h2]

theorem zero_range_drop (cs : List CommitEntry) (i n : Nat) :
    (zero_range cs i n).drop (i + n) = cs.drop (i + n) := by
  apply List.ext_getElem?
  intro j
  rw [List.getElem?_drop, List.getElem?_drop, zero_range_getElem?]
  have h : ¬ (i ≤ i + n + j ∧ i + n + j < i + n ∧ i + n + j < cs.length) := by omega
  simp [h]

theorem slot_address_set_ne (cs : List CommitEntry) (i j : Nat) (x : CommitEntry) (h : i ≠ j) :
    slot_address (cs.set i x) j = slot_address cs j := by
  simp [slot_address, List.getElem?_set_ne h]

theorem freed_range_set_lt : ∀ (n : Nat) (cs : List CommitEntry) (i j : Nat) (x : CommitEntry),
    i < j → freed_range (cs.set i x) j n = freed_range cs j n := by
  intro n
  induction n with
  | zero => intro cs i j x _; rfl
  | succ n ih =>
    intro cs i j x h
    simp only [freed_range]
    rw [slot_address_set_ne cs i j x (by omega), ih cs i (j + 1) x (by omega)]

theorem run_release_range (r : WriteLogRegistry) :
    ∀ (n first : Nat) (cs : List CommitEntry) (d : List Nat),
      r.m_array_start ≤ first → first - r.m_array_start + n ≤ cs.length →
      run_versions r.release_version (List.range' first n) (cs, d)
        = .ok (zero_range cs (first - r.m_array_start) n,
               d ++ freed_range cs (first - r.m_array_start) n) := by
  intro n
  induction n with
  | zero => intro first cs d _ _; simp [run_versions, zero_range, freed_range]
  | succ n ih =>
    intro first cs d hs hlen
    have hlt : first - r.m_array_start < cs.length := by omega
    have hget : cs[first - r.m_array_start]? = some (cs[first - r.m_array_start]) :=
      List.getElem?_eq_getElem hlt
    have hstep : first + 1 - r.m_array_start = first - r.m_array_start + 1 := by omega
    rw [List.range'_succ]
    simp only [run_versions, WriteLogRegistry.release_version, WriteLogRegistry.to_index,
      ge_iff_le, hs, if_true, release_slot, hget]
    rw [ih (first + 1) _ _ (by omega) (by simp; omega), hstep]
    simp only [zero_range, freed_range, slot_address, hget]
    rw [freed_range_set_lt n cs _ _ _ (by omega)]
    by_cases hd : cs[first - r.m_array_start].data = 0 <;> simp [hd]

theorem is_a_known_commit_iff (r : WriteLogRegistry) (v : Nat) :
    r.is_a_known_commit v = true ↔
      r.m_oldest_version ≠ 0 ∧ r.m_oldest_version ≤ v ∧ v ≤ r.m_newest_version := by
  simp [WriteLogRegistry.is_a_known_commit, WriteLogRegistry.holds_some_commits, and_assoc]

theorem WindowInv.newest_index {r : WriteLogRegistry} (h : WindowInv r)
    (hne : r.m_oldest_version ≠ 0) :
    r.m_array_start ≤ r.m_oldest_version ∧ r.m_oldest_version ≤ r.m_newest_version ∧
      r.m_newest_version - r.m_array_start < r.m_commits.length := by
  obtain ⟨h1, h2, h3⟩ := h hne
  exact ⟨h1, h2, h3 _ h2 (Nat.le_refl _)⟩

theorem commit_view_error (r : WriteLogRegistry) (v : Nat) (e : Fault)
    (h : r.commit_view v = .error e) : e = .assertion := by
  unfold WriteLogRegistry.commit_view WriteLogRegistry.to_index at h
  split at h
  · split at h
    · rename_i e1 he
      split at he <;> simp at he
      cases h; exact he.symm
    · split at h
      · cases h; rfl
      · simp at h
  · cases h; rfl

theorem commit_view_unknown (r : WriteLogRegistry) (v : Nat)
    (h : ¬ (r.m_oldest_version ≠ 0 ∧ r.m_oldest_version ≤ v ∧ v ≤ r.m_newest_version)) :
    r.commit_view v = .error .assertion := by
  have hk : r.is_a_known_commit v = false := by
    rw [← Bool.not_eq_true, is_a_known_commit_iff]; exact h
  simp [WriteLogRegistry.commit_view, hk]

theorem commit_view_known (r : WriteLogRegistry) (v : Nat)
    (hk : r.m_oldest_version ≠ 0 ∧ r.m_oldest_version ≤ v ∧ v ≤ r.m_newest_version)
    (hs : r.m_array_start ≤ v) (hl : v - r.m_array_start < r.m_commits.length) :
    r.commit_view v = .ok (r.m_commits[v - r.m_array_start]).view := by
  have hk1 : r.is_a_known_commit v = true := (is_a_known_commit_iff r v).mpr hk
  simp [WriteLogRegistry.commit_view, hk1, WriteLogRegistry.to_index, hs,
    List.getElem?_eq_getElem hl, CommitEntry.view]

theorem run_push_view_range (r : WriteLogRegistry) :
    ∀ (n first : Nat) (out : List BinaryData),
      r.m_oldest_version ≠ 0 → r.m_array_start ≤ first → r.m_oldest_version ≤ first →
      first + n ≤ r.m_newest_version + 1 →
      first - r.m_array_start + n ≤ r.m_commits.length →
      run_versions r.push_view (List.range' first n) out
        = .ok (out ++ ((r.m_commits.drop (first - r.m_array_start)).take n).map
            CommitEntry.view) := by
  intro n
  induction n with
  | zero => intro first out _ _ _ _ _; simp [run_versions]
  | succ n ih =>
    intro first out hne hs ho hn hlen
    have hlt : first - r.m_array_start < r.m_commits.length := by omega
    have hstep : first + 1 - r.m_array_start = first - r.m_array_start + 1 := by omega
    rw [List.range'_succ]
    simp only [run_versions, WriteLogRegistry.push_view,
      commit_view_known r first ⟨hne, ho, by omega⟩ hs hlt]
    rw [ih (first + 1) _ hne (by omega) (by omega) (by omega) (by omega), hstep,
      List.drop_eq_getElem_cons hlt]
    simp only [List.take_succ_cons, List.map_cons, List.append_assoc, List.singleton_append]

theorem run_push_view_fail (r : WriteLogRegistry) :
    ∀ (l : List Nat) (out : List BinaryData),
      (∃ v ∈ l, ¬ (r.m_oldest_version ≠ 0 ∧ r.m_oldest_version ≤ v ∧ v ≤ r.m_newest_version)) →
      run_versions r.push_view l out = .error .assertion := by
  intro l
  induction l with
  | nil => intro out h; simp at h
  | cons a l ih =>
    intro out h
    simp only [run_versions, WriteLogRegistry.push_view]
    cases hv : r.commit_view a with
    | error e => simp [commit_view_error r a e hv]
    | ok b =>
      simp only
      apply ih
      obtain ⟨v, hmem, hv2⟩ := h
      rcases List.mem_cons.mp hmem with rfl | hmem
      · rw [commit_view_unknown r v hv2] at hv; cases hv
      · exact ⟨v, hmem, hv2⟩

/-- The loop of `get_commit_entries` is a loop over the versions `from + 1, ..., to` when
neither bound is the largest 64-bit value. -/
theorem get_commit_entries_eq_run (r : WriteLogRegistry) (from_version to_version : Nat)
    (hf : from_version + 1 < VERSION_MOD) (ht : to_version + 1 < VERSION_MOD) :
    r.get_commit_entries from_version to_version
      = run_versions r.push_view
          (List.range' (from_version + 1) (to_version - from_version)) [] := by
  unfold WriteLogRegistry.get_commit_entries
  rw [Nat.mod_eq_of_lt hf, for_versions_eq_run _ _ ht _ _ _ (by omega)]
  congr 2
  omega

/-- An in-window fetch: the views of the slots of the versions `from + 1, ..., to`. -/
theorem get_commit_entries_window (r : WriteLogRegistry) (from_version to_version : Nat)
    (hinv : WindowInv r) (hne : r.m_oldest_version ≠ 0)
    (hf : r.m_oldest_version ≤ from_version + 1) (ht : to_version ≤ r.m_newest_version)
    (hfb : from_version + 1 < VERSION_MOD) (hb : to_version + 1 < VERSION_MOD) :
    r.get_commit_entries from_version to_version
      = .ok (((r.m_commits.drop (from_version + 1 - r.m_array_start)).take
          (to_version - from_version)).map CommitEntry.view) := by
  obtain ⟨h1, h2, h3⟩ := hinv.newest_index hne
  by_cases hft : from_version < to_version
  · rw [get_commit_entries_eq_run r _ _ (by omega) (by omega),
      run_push_view_range r _ _ _ hne (by omega) hf (by omega) (by omega)]
    simp
  · have h0 : to_version - from_version = 0 := by omega
    unfold WriteLogRegistry.get_commit_entries
    rw [Nat.mod_eq_of_lt hfb, for_versions_gt _ _ _ _ _ (by omega), h0]
    simp

theorem vector_resize_zero (v : List CommitEntry) : vector_resize v 0 = [] := by
  simp [vector_resize]

theorem copy_down_resize (v : List CommitEntry) (b e : Nat) (hbe : b ≤ e) (he : e ≤ v.length) :
    ∃ copied, vector_copy_down v b e = .ok copied ∧
      vector_resize copied (e - b) = (v.drop b).take (e - b) := by
  refine ⟨(v.drop b).take (e - b) ++ v.drop (e - b), ?_, ?_⟩
  · simp [vector_copy_down, hbe, he]
  · have hlen : ((v.drop b).take (e - b)).length = e - b := by
      simp [List.length_take, List.length_drop]; omega
    have hle : e - b ≤ ((v.drop b).take (e - b) ++ v.drop (e - b)).length := by
      rw [List.length_append, hlen]; omega
    rw [vector_resize, if_pos hle]
    exact List.take_left' hlen

theorem wrapping_sub_succ (a k : Nat) (ha : a < VERSION_MOD) (hk : k < a) :
    (wrapping_sub a (k + 1) + 1) % VERSION_MOD = a - k := by
  have h1 : (k + 1) % VERSION_MOD = k + 1 := Nat.mod_eq_of_lt (by omega)
  have h2 : (a + VERSION_MOD - (k + 1)) % VERSION_MOD = a - (k + 1) := by
    have : a + VERSION_MOD - (k + 1) = (a - (k + 1)) + VERSION_MOD := by omega
    rw [this, Nat.add_mod_right, Nat.mod_eq_of_lt (by omega)]
  rw [wrapping_sub, h1, h2, Nat.mod_eq_of_lt (by omega)]
  omega

theorem set_oldest_version_needed_eq (r : WriteLogRegistry) (k : Nat)
    (hinv : WindowInv r) (hne : r.m_oldest_version ≠ 0)
    (hlen : r.m_commits.length < VERSION_MOD) (hnew : r.m_newest_version < VERSION_MOD)
    (hlo : r.m_oldest_version ≤ k + 1) (hhi : k ≤ r.m_newest_version)
    (hk : k + 1 < VERSION_MOD) :
    r.set_oldest_version_needed k = .ok (advance_result r k) := by
  obtain ⟨h1, h2, h3⟩ := hinv.newest_index hne
  have hh : r.holds_some_commits = true := by
    simp [WriteLogRegistry.holds_some_commits, hne]
  have hloop : for_versions r.release_version k (VERSION_MOD + 1) r.m_oldest_version
      (r.m_commits, []) = .ok (zero_range r.m_commits (r.m_oldest_version - r.m_array_start)
        (k + 1 - r.m_oldest_version),
        freed_range r.m_commits (r.m_oldest_version - r.m_array_start)
        (k + 1 - r.m_oldest_version)) := by
    rw [for_versions_eq_run _ _ hk _ _ _ (by omega),
      run_release_range r _ _ _ _ h1 (by omega)]
    simp
  unfold WriteLogRegistry.set_oldest_version_needed advance_result
  simp only [hh, Bool.not_true, Bool.false_eq_true, if_false, hloop]
  by_cases hkn : k = r.m_newest_version
  · simp only [hkn, if_true, vector_resize_zero]
  · have hmod : (k + 1) % VERSION_MOD = k + 1 := Nat.mod_eq_of_lt hk
    have hs : r.m_array_start ≤ k + 1 := by omega
    simp only [hkn, if_false, hmod, WriteLogRegistry.to_index, ge_iff_le, hs, if_true,
      zero_range_length]
    by_cases hc : k + 1 - r.m_array_start > r.m_commits.length / 2
    · have hs2 : r.m_array_start ≤ r.m_newest_version := by omega
      have hmod2 : (r.m_newest_version - r.m_array_start + 1) % VERSION_MOD
          = r.m_newest_version - r.m_array_start + 1 := Nat.mod_eq_of_lt (by omega)
      obtain ⟨copied, hcopy, hres⟩ := copy_down_resize
        (zero_range r.m_commits (r.m_oldest_version - r.m_array_start)
          (k + 1 - r.m_oldest_version))
        (k + 1 - r.m_array_start) (r.m_newest_version - r.m_array_start + 1)
        (by omega) (by rw [zero_range_length]; omega)
      have hsub : r.m_newest_version - r.m_array_start + 1 - (k + 1 - r.m_array_start)
          = r.m_newest_version - k := by omega
      rw [hsub] at hres
      simp only [hc, if_true, hs2, hmod2, hcopy,
        wrapping_sub_succ r.m_newest_version k hnew (by omega), hres]
    · simp only [hc, if_false]

theorem StrongInv.windowInv {r : WriteLogRegistry} {g : Nat → Option CommitEntry}
    (h : StrongInv r g) : WindowInv r := by
  intro hne
  obtain ⟨_, h2, h3, h4, _⟩ := h.window hne
  exact ⟨h2, h3, fun v hv1 hv2 => by omega⟩

theorem StrongInv.length_lt {r : WriteLogRegistry} {g : Nat → Option CommitEntry}
    (h : StrongInv r g) : r.m_commits.length < VERSION_MOD := by
  by_cases hne : r.m_oldest_version = 0
  · rw [(h.empty hne).1]; unfold VERSION_MOD; norm_num
  · obtain ⟨h1, h2, h3, h4, _⟩ := h.window hne
    have := h.typed.2.2
    omega

theorem set_oldest_version_needed_max (r : WriteLogRegistry)
    (p : WriteLogRegistry × List Nat) (hne : r.m_oldest_version ≠ 0)
    (ho : r.m_oldest_version < VERSION_MOD) :
    r.set_oldest_version_needed (VERSION_MOD - 1) ≠ .ok p := by
  have hh : r.holds_some_commits = true := by
    simp [WriteLogRegistry.holds_some_commits, hne]
  unfold WriteLogRegistry.set_oldest_version_needed
  simp only [hh, Bool.not_true, Bool.false_eq_true, if_false]
  cases hloop : for_versions r.release_version (VERSION_MOD - 1) (VERSION_MOD + 1)
      r.m_oldest_version (r.m_commits, []) with
  | error e => simp
  | ok st => exact absurd hloop (for_versions_max_not_ok _ _ _ _ _ ho)

theorem StrongInv.fresh : StrongInv WriteLogRegistry.ctor (fun _ => none) := by
  refine ⟨?_, ?_, ?_⟩
  · simp [WriteLogRegistry.ctor, VERSION_MOD]
  · intro _; simp [WriteLogRegistry.ctor]
  · intro h; simp [WriteLogRegistry.ctor] at h

theorem StrongInv.add_commit {r : WriteLogRegistry} {g : Nat → Option CommitEntry}
    (h : StrongInv r g) (version data sz : Nat) (r' : WriteLogRegistry)
    (hv1 : 1 ≤ version) (hv2 : version < VERSION_MOD)
    (hc : r.m_oldest_version ≠ 0 → version = r.m_newest_version + 1)
    (hr : r.add_commit version data sz = .ok r') :
    StrongInv r' (fun v => if v = version then some ⟨sz, data⟩ else g v) := by
  by_cases hne : r.m_oldest_version = 0
  · obtain ⟨he1, he2, he3⟩ := h.empty hne
    have hh : r.holds_some_commits = false := by
      simp [WriteLogRegistry.holds_some_commits, hne]
    simp only [WriteLogRegistry.add_commit, hh, Bool.not_false, if_true, he1, List.nil_append,
      Except.ok.injEq] at hr
    subst hr
    refine ⟨⟨hv2, hv2, hv2⟩, ?_, ?_⟩
    · intro h0; simp at h0; omega
    · intro _
      refine ⟨hv1, Nat.le_refl _, Nat.le_refl _, by simp, ?_⟩
      intro v
      by_cases hvv : v = version
      · subst hvv; simp
      · have : ¬ (version ≤ v ∧ v ≤ version) := by omega
        simp [hvv, this, he3 v]
  · obtain ⟨hw1, hw2, hw3, hw4, hw5⟩ := h.window hne
    have hh : r.holds_some_commits = true := by
      simp [WriteLogRegistry.holds_some_commits, hne]
    have hver := hc hne
    have hmod : (1 + r.m_newest_version) % VERSION_MOD = version := by
      rw [Nat.mod_eq_of_lt (by omega)]; omega
    simp only [WriteLogRegistry.add_commit, hh, Bool.not_true, Bool.false_eq_true, if_false,
      hmod, if_true, Except.ok.injEq] at hr
    subst hr
    refine ⟨⟨h.typed.1, h.typed.2.1, hv2⟩, ?_, ?_⟩
    · intro h0; exact absurd h0 hne
    · intro _
      refine ⟨hw1, hw2, by simp; omega, by simp; omega, ?_⟩
      intro v
      by_cases hvv : v = version
      · subst hvv
        have hidx : r.m_newest_version + 1 - r.m_array_start = r.m_commits.length := by omega
        have : r.m_oldest_version ≤ r.m_newest_version + 1 := by omega
        simp [hver, hidx, this]
      · simp only [hvv, if_false, hw5 v]
        by_cases hin : r.m_oldest_version ≤ v ∧ v ≤ r.m_newest_version
        · have hin2 : r.m_oldest_version ≤ v ∧ v ≤ version := by omega
          have hlt : v - r.m_array_start < r.m_commits.length := by omega
          simp [hin, hin2, List.getElem?_append_left hlt]
        · have hin2 : ¬ (r.m_oldest_version ≤ v ∧ v ≤ version) := by omega
          simp [hin, hin2]

theorem StrongInv.advance {r : WriteLogRegistry} {g : Nat → Option CommitEntry}
    (h : StrongInv r g) (k : Nat) (hne : r.m_oldest_version ≠ 0)
    (hlo : r.m_oldest_version ≤ k + 1) (hhi : k ≤ r.m_newest_version) :
    StrongInv (advance_result r k).1 (fun v => if v ≤ k then none else g v) := by
  obtain ⟨hw1, hw2, hw3, hw4, hw5⟩ := h.window hne
  obtain ⟨ht1, ht2, ht3⟩ := h.typed
  unfold tightdb.advance_result
  by_cases hkn : k = r.m_newest_version
  · simp only [hkn, if_true]
    refine ⟨⟨by unfold VERSION_MOD; norm_num, by unfold VERSION_MOD; norm_num, ht3⟩, ?_, ?_⟩
    · intro _
      refine ⟨rfl, rfl, ?_⟩
      intro v
      by_cases hv : v ≤ r.m_newest_version
      · simp [hv]
      · have : ¬ (r.m_oldest_version ≤ v ∧ v ≤ r.m_newest_version) := by omega
        simp [hv, hw5 v, this]
    · intro h0; simp at h0
  · have hzero : ∀ v, k + 1 ≤ v →
        (zero_range r.m_commits (r.m_oldest_version - r.m_array_start)
          (k + 1 - r.m_oldest_version))[v - r.m_array_start]? = r.m_commits[v - r.m_array_start]? := by
      intro v hv
      rw [zero_range_getElem?]
      have : ¬ (r.m_oldest_version - r.m_array_start ≤ v - r.m_array_start ∧
          v - r.m_array_start < r.m_oldest_version - r.m_array_start + (k + 1 - r.m_oldest_version) ∧
          v - r.m_array_start < r.m_commits.length) := by omega
      simp only [this, if_false]
    by_cases hc : k + 1 - r.m_array_start > r.m_commits.length / 2
    · simp only [hkn, if_false, hc, if_true]
      refine ⟨⟨by dsimp only; omega, by dsimp only; omega, ht3⟩, ?_, ?_⟩
      · intro h0; simp at h0
      · intro _
        refine ⟨by dsimp only; omega, Nat.le_refl _, by dsimp only; omega, ?_, ?_⟩
        · simp [List.length_take, List.length_drop, zero_range_length]; omega
        · intro v
          by_cases hin : k + 1 ≤ v ∧ v ≤ r.m_newest_version
          · have hvk : ¬ v ≤ k := by omega
            have hin0 : r.m_oldest_version ≤ v ∧ v ≤ r.m_newest_version := by omega
            have hlt : v - (k + 1) < r.m_newest_version - k := by omega
            have hidx : k + 1 - r.m_array_start + (v - (k + 1)) = v - r.m_array_start := by omega
            simp only [hvk, if_false, hw5 v, hin0, hin, and_self, if_true]
            rw [List.getElem?_take_of_lt hlt, List.getElem?_drop, hidx, hzero v hin.1]
          · by_cases hvk : v ≤ k
            · simp [hvk, hin]
            · have hin0 : ¬ (r.m_oldest_version ≤ v ∧ v ≤ r.m_newest_version) := by omega
              simp [hvk, hin, hw5 v, hin0]
    · simp only [hkn, if_false, hc]
      refine ⟨⟨ht1, by dsimp only; omega, ht3⟩, ?_, ?_⟩
      · intro h0; simp at h0
      · intro _
        refine ⟨hw1, by dsimp only; omega, by dsimp only; omega,
          by simp only [zero_range_length]; omega, ?_⟩
        intro v
        by_cases hin : k + 1 ≤ v ∧ v ≤ r.m_newest_version
        · have hvk : ¬ v ≤ k := by omega
          have hin0 : r.m_oldest_version ≤ v ∧ v ≤ r.m_newest_version := by omega
          simp only [hvk, if_false, hw5 v, hin0, hin, and_self, if_true]
          exact (hzero v hin.1).symm
        · by_cases hvk : v ≤ k
          · simp [hvk, hin]
          · have hin0 : ¬ (r.m_oldest_version ≤ v ∧ v ≤ r.m_newest_version) := by omega
            simp [hvk, hin, hw5 v, hin0]

/-- On a reachable non-empty window a watermark of the window's range is never the largest
64-bit value when the call returns, and the call returns `advance_result`. -/
theorem StrongInv.set_oldest_version_needed_ok {r : WriteLogRegistry}
    {g : Nat → Option CommitEntry} (h : StrongInv r g) (k : Nat)
    (hne : r.m_oldest_version ≠ 0)
    (hlo : r.m_oldest_version ≤ k + 1) (hhi : k ≤ r.m_newest_version)
    (hk : k + 1 < VERSION_MOD) :
    r.set_oldest_version_needed k = .ok (advance_result r k) :=
  set_oldest_version_needed_eq r k h.windowInv hne h.length_lt h.typed.2.2 hlo hhi hk

theorem StrongInv.set_oldest_version_needed {r : WriteLogRegistry}
    {g : Nat → Option CommitEntry} (h : StrongInv r g) (k : Nat) (r' : WriteLogRegistry)
    (deleted : List Nat)
    (hlo : r.m_oldest_version ≤ k + 1) (hhi : k ≤ r.m_newest_version)
    (hr : r.set_oldest_version_needed k = .ok (r', deleted)) :
    StrongInv r' (fun v => if v ≤ k then none else g v) := by
  by_cases hne : r.m_oldest_version = 0
  · have hh : r.holds_some_commits = false := by
      simp [WriteLogRegistry.holds_some_commits, hne]
    simp only [WriteLogRegistry.set_oldest_version_needed, hh, Bool.not_false, if_true,
      Except.ok.injEq, Prod.mk.injEq] at hr
    obtain ⟨hr1, _⟩ := hr
    subst hr1
    obtain ⟨he1, he2, he3⟩ := h.empty hne
    refine ⟨h.typed, ?_, ?_⟩
    · intro _
      refine ⟨he1, he2, ?_⟩
      intro v
      simp [he3 v]
    · intro h0; exact absurd hne h0
  · have hk : k + 1 < VERSION_MOD := by
      by_contra hcon
      have hkm : k = VERSION_MOD - 1 := by have := h.typed.2.2; omega
      rw [hkm] at hr
      exact set_oldest_version_needed_max r _ hne h.typed.2.1 hr
    rw [h.set_oldest_version_needed_ok k hne hlo hhi hk] at hr
    have hr1 : (tightdb.advance_result r k).1 = r' := by
      simp only [Except.ok.injEq] at hr
      rw [hr]
    rw [← hr1]
    exact h.advance k hne hlo hhi

theorem Reachable.strongInv {r : WriteLogRegistry} {g : Nat → Option CommitEntry}
    (h : Reachable r g) : StrongInv r g := by
  induction h with
  | fresh => exact StrongInv.fresh
  | add_commit r g version data sz r' _ hv1 hv2 hc hr ih =>
    exact ih.add_commit version data sz r' hv1 hv2 hc hr
  | get_commit_entries r g f t views _ _ ih => exact ih
  | set_oldest_version_needed r g k r' deleted _ hlo hhi hr ih =>
    exact ih.set_oldest_version_needed k r' deleted hlo hhi hr

theorem add_commits_window : ∀ (ps : List CommitEntry) (r : WriteLogRegistry),
    r.m_oldest_version ≠ 0 → r.m_newest_version + ps.length < VERSION_MOD →
    add_commits r (r.m_newest_version + 1) ps
      = .ok { r with m_commits := r.m_commits ++ ps,
                     m_newest_version := r.m_newest_version + ps.length } := by
  intro ps
  induction ps with
  | nil => intro r _ _; simp [add_commits]
  | cons p ps ih =>
    intro r hne hb
    have hh : r.holds_some_commits = true := by
      simp [WriteLogRegistry.holds_some_commits, hne]
    have hlen : (p :: ps).length = ps.length + 1 := rfl
    have hmod : (1 + r.m_newest_version) % VERSION_MOD = r.m_newest_version + 1 := by
      rw [Nat.mod_eq_of_lt (by omega)]; omega
    simp only [add_commits, WriteLogRegistry.add_commit, hh, Bool.not_true,
      Bool.false_eq_true, if_false, hmod, if_true]
    have := ih { r with m_commits := r.m_commits ++ [⟨p.sz, p.data⟩],
                        m_newest_version := r.m_newest_version + 1 } hne
      (by dsimp only; omega)
    dsimp only at this
    rw [this]
    simp only [List.append_assoc, List.singleton_append, hlen]
    congr 2
    omega

theorem add_commits_ctor (p : CommitEntry) (ps : List CommitEntry)
    (hb : ps.length + 1 < VERSION_MOD) :
    add_commits WriteLogRegistry.ctor 1 (p :: ps)
      = .ok { m_commits := p :: ps, m_array_start := 1, m_oldest_version := 1,
              m_newest_version := ps.length + 1 } := by
  have h := add_commits_window ps
    { m_commits := [p], m_array_start := 1, m_oldest_version := 1, m_newest_version := 1 }
    (by simp) (by dsimp only; omega)
  dsimp only at h
  simp only [add_commits, WriteLogRegistry.add_commit, WriteLogRegistry.holds_some_commits,
    WriteLogRegistry.ctor, bne_self_eq_false, Bool.not_false, if_true, List.nil_append]
  rw [h]
  simp [Nat.add_comm]

theorem sample_seeded_reachable (version : Nat) (h1 : 1 ≤ version)
    (h2 : version < VERSION_MOD) :
    Reachable (sample_seeded version) (sample_seeded_log version) :=
  Reachable.add_commit WriteLogRegistry.ctor (fun _ => none) version 101 1 _
    Reachable.fresh h1 h2 (fun h => absurd rfl h) rfl

theorem sample_abc_reachable : Reachable sample_abc sample_abc_log :=
  Reachable.add_commit _ _ 3 103 3 _
    (Reachable.add_commit _ _ 2 102 2 _
      (sample_seeded_reachable 1 (by decide) (by decide))
      (by decide) (by decide) (fun _ => rfl) rfl)
    (by decide) (by decide) (fun _ => rfl) rfl

theorem sample_released_reachable : Reachable sample_released sample_released_log :=
  Reachable.set_oldest_version_needed _ _ 1 _ [101]
    (sample_seeded_reachable 1 (by decide) (by decide)) (by decide) (by decide) rfl

theorem mem_freed_range : ∀ (n : Nat) (cs : List CommitEntry) (i j : Nat) (e : CommitEntry),
    i ≤ j → j < i + n → cs[j]? = some e → e.data ≠ 0 → e.data ∈ freed_range cs i n := by
  intro n
  induction n with
  | zero => intro cs i j e h1 h2; omega
  | succ n ih =>
    intro cs i j e h1 h2 hget hd
    simp only [freed_range, List.mem_append]
    by_cases hij : i = j
    · left
      subst hij
      simp [slot_address, hget, hd]
    · right
      exact ih cs (i + 1) j e (by omega) (by omega) hget hd

/-- The slots of the versions above the watermark are the same before and after the advance,
whether or not the vector is compacted. -/
theorem advance_result_window (r : WriteLogRegistry) (k : Nat)
    (hs : r.m_array_start ≤ r.m_oldest_version) (hlo : r.m_oldest_version ≤ k + 1)
    (hk : k < r.m_newest_version) :
    (((advance_result r k).1.m_commits.drop
        (k + 1 - (advance_result r k).1.m_array_start)).take (r.m_newest_version - k))
      = (r.m_commits.drop (k + 1 - r.m_array_start)).take (r.m_newest_version - k) := by
  have hkn : k ≠ r.m_newest_version := by omega
  have hidx : r.m_oldest_version - r.m_array_start + (k + 1 - r.m_oldest_version)
      = k + 1 - r.m_array_start := by omega
  have hdrop := zero_range_drop r.m_commits (r.m_oldest_version - r.m_array_start)
    (k + 1 - r.m_oldest_version)
  rw [hidx] at hdrop
  unfold advance_result
  by_cases hc : k + 1 - r.m_array_start > r.m_commits.length / 2
  · simp only [hkn, if_false, hc, if_true, Nat.sub_self, List.drop_zero, List.take_take,
      Nat.min_self, hdrop]
  · simp only [hkn, if_false, hc, hdrop]

theorem advance_result_newest (r : WriteLogRegistry) (k : Nat) :
    (advance_result r k).1.m_newest_version = r.m_newest_version := by
  unfold advance_result
  split
  · rfl
  · split <;> rfl

theorem advance_result_oldest (r : WriteLogRegistry) (k : Nat) :
    (advance_result r k).1.m_oldest_version = if k = r.m_newest_version then 0 else k + 1 := by
  unfold advance_result
  split
  · rfl
  · split <;> rfl

theorem advance_result_deleted (r : WriteLogRegistry) (k : Nat) :
    (advance_result r k).2 = freed_range r.m_commits (r.m_oldest_version - r.m_array_start)
      (k + 1 - r.m_oldest_version) := by
  unfold advance_result
  split
  · rfl
  · split <;> rfl

/-- A fetch of no version returns no view, when `from` is not the largest 64-bit value. -/
theorem get_commit_entries_none (r : WriteLogRegistry) (from_version to_version : Nat)
    (h : to_version ≤ from_version) (hf : from_version + 1 < VERSION_MOD) :
    r.get_commit_entries from_version to_version = .ok [] := by
  unfold WriteLogRegistry.get_commit_entries
  rw [Nat.mod_eq_of_lt hf, for_versions_gt _ _ _ _ _ (by omega)]

theorem advance_result_newest_watermark (r : WriteLogRegistry) :
    (advance_result r r.m_newest_version).1
      = { m_commits := [], m_array_start := 0, m_oldest_version := 0,
          m_newest_version := r.m_newest_version } := by
  simp [advance_result]

/-- A commit on a registry without commits and with an empty vector is retrievable. -/
theorem add_commit_seed_fetch (r : WriteLogRegistry) (version data sz : Nat)
    (hne : r.m_oldest_version = 0) (hc : r.m_commits = [])
    (hv1 : 1 ≤ version) (hv2 : version + 1 < VERSION_MOD) :
    ∃ r2, r.add_commit version data sz = .ok r2 ∧
      r2 = { m_commits := [⟨sz, data⟩], m_array_start := version,
             m_oldest_version := version, m_newest_version := version } ∧
      r2.get_commit_entries (version - 1) version = .ok [⟨data, sz⟩] := by
  have hh : r.holds_some_commits = false := by
    simp [WriteLogRegistry.holds_some_commits, hne]
  refine ⟨_, by simp only [WriteLogRegistry.add_commit, hh, Bool.not_false, if_true, hc,
    List.nil_append], rfl, ?_⟩
  rw [get_commit_entries_window _ (version - 1) version ?_ (by dsimp only; omega)
    (by dsimp only; omega) (by simp) (by omega) (by omega)]
  · have h1 : version - 1 + 1 - version = 0 := by omega
    have h2 : version - (version - 1) = 1 := by omega
    simp [h1, h2, CommitEntry.view]
  · intro _
    refine ⟨Nat.le_refl _, Nat.le_refl _, ?_⟩
    intro v hv3 hv4
    dsimp only at hv3 hv4 ⊢
    simp only [List.length_singleton]
    omega

/-- A second advance to the same watermark returns the registry unchanged and deletes
nothing. -/
theorem set_advance_result_again (r : WriteLogRegistry) (k : Nat)
    (hk : k + 1 < VERSION_MOD) (hs : r.m_array_start ≤ k + 1) :
    (advance_result r k).1.set_oldest_version_needed k = .ok ((advance_result r k).1, []) := by
  have hmod : (k + 1) % VERSION_MOD = k + 1 := Nat.mod_eq_of_lt hk
  unfold advance_result
  by_cases hkn : k = r.m_newest_version
  · simp [hkn, WriteLogRegistry.set_oldest_version_needed,
      WriteLogRegistry.holds_some_commits]
  · by_cases hc : k + 1 - r.m_array_start > r.m_commits.length / 2
    · simp only [hkn, if_false, hc, if_true]
      unfold WriteLogRegistry.set_oldest_version_needed
      simp [WriteLogRegistry.holds_some_commits, for_versions_gt _ k VERSION_MOD (k + 1) _
        (Nat.lt_succ_self k), hkn, hmod, WriteLogRegistry.to_index]
    · simp only [hkn, if_false, hc]
      unfold WriteLogRegistry.set_oldest_version_needed
      simp [WriteLogRegistry.holds_some_commits, for_versions_gt _ k VERSION_MOD (k + 1) _
        (Nat.lt_succ_self k), hkn, hmod, WriteLogRegistry.to_index, hs, zero_range_length]
      omega

theorem sample_abc_windowInv : WindowInv sample_abc := by
  intro _
  refine ⟨by decide, by decide, ?_⟩
  intro v h1 h2
  simp only [sample_abc, List.length_cons, List.length_nil] at h1 h2 ⊢
  omega

theorem sample_tail_windowInv : WindowInv sample_tail := by
  intro _
  refine ⟨by decide, by decide, ?_⟩
  intro v h1 h2
  simp only [sample_tail, List.length_cons, List.length_nil] at h1 h2 ⊢
  omega

/-- The hard reset in closed form, on a non-empty window whose newest version is not the
largest 64-bit value: the slots of the window are released, the vector keeps its length and
`m_array_start` its value. -/
theorem reset_log_management_eq (r : WriteLogRegistry) (hinv : WindowInv r)
    (hne : r.m_oldest_version ≠ 0) (hb : r.m_newest_version + 1 < VERSION_MOD) :
    r.reset_log_management
      = .ok ({ r with
                m_commits := zero_range r.m_commits (r.m_oldest_version - r.m_array_start)
                  (r.m_newest_version + 1 - r.m_oldest_version),
                m_newest_version := 0, m_oldest_version := 0 },
             freed_range r.m_commits (r.m_oldest_version - r.m_array_start)
               (r.m_newest_version + 1 - r.m_oldest_version)) := by
  obtain ⟨h1, h2, h3⟩ := hinv.newest_index hne
  unfold WriteLogRegistry.reset_log_management
  rw [if_pos hne, for_versions_eq_run _ _ hb _ _ _ (by omega),
    run_release_range r _ _ _ _ h1 (by omega)]
  simp

/-- On an empty window the hard reset changes nothing. -/
theorem reset_log_management_empty (r : WriteLogRegistry) (h0 : r.m_oldest_version = 0) :
    r.reset_log_management = .ok (r, []) := by
  simp [WriteLogRegistry.reset_log_management, h0]

/-- A returning advance on a reachable non-empty window is the closed form. -/
theorem StrongInv.advance_eq {r : WriteLogRegistry} {g : Nat → Option CommitEntry}
    (h : StrongInv r g) (k : Nat) (r' : WriteLogRegistry) (deleted : List Nat)
    (hne : r.m_oldest_version ≠ 0)
    (hlo : r.m_oldest_version ≤ k + 1) (hhi : k ≤ r.m_newest_version)
    (hr : r.set_oldest_version_needed k = .ok (r', deleted)) :
    r' = (tightdb.advance_result r k).1 := by
  have hk : k + 1 < VERSION_MOD := by
    by_contra hcon
    have hkm : k = VERSION_MOD - 1 := by have := h.typed.2.2; omega
    rw [hkm] at hr
    exact set_oldest_version_needed_max r _ hne h.typed.2.1 hr
  rw [h.set_oldest_version_needed_ok k hne hlo hhi hk] at hr
  simp only [Except.ok.injEq] at hr
  rw [hr]

/-- In a reachable state the unused prefix of the vector is at most half of it. -/
theorem Reachable.unused_le_half {r : WriteLogRegistry} {g : Nat → Option CommitEntry}
    (h : Reachable r g) :
    r.m_oldest_version ≠ 0 →
      2 * (r.m_oldest_version - r.m_array_start) ≤ r.m_commits.length := by
  induction h with
  | fresh => intro h0; simp [WriteLogRegistry.ctor] at h0
  | add_commit r g version data sz r' hreach hv1 hv2 hc hr ih =>
    intro _
    by_cases hne : r.m_oldest_version = 0
    · have hh : r.holds_some_commits = false := by
        simp [WriteLogRegistry.holds_some_commits, hne]
      simp only [WriteLogRegistry.add_commit, hh, Bool.not_false, if_true,
        Except.ok.injEq] at hr
      subst hr
      simp
    · have hh : r.holds_some_commits = true := by
        simp [WriteLogRegistry.holds_some_commits, hne]
      have hmod : (1 + r.m_newest_version) % VERSION_MOD = version := by
        rw [Nat.mod_eq_of_lt (by have := hc hne; omega)]; have := hc hne; omega
      simp only [WriteLogRegistry.add_commit, hh, Bool.not_true, Bool.false_eq_true, if_false,
        hmod, if_true, Except.ok.injEq] at hr
      subst hr
      have := ih hne
      simp only [List.length_append, List.length_singleton]
      omega
  | get_commit_entries r g f t views _ _ ih => exact ih
  | set_oldest_version_needed r g k r' deleted hreach hlo hhi hr ih =>
    intro hne'
    by_cases hne : r.m_oldest_version = 0
    · have hh : r.holds_some_commits = false := by
        simp [WriteLogRegistry.holds_some_commits, hne]
      simp only [WriteLogRegistry.set_oldest_version_needed, hh, Bool.not_false, if_true,
        Except.ok.injEq, Prod.mk.injEq] at hr
      rw [← hr.1] at hne'
      exact absurd hne hne'
    · have hr' := hreach.strongInv.advance_eq k r' deleted hne hlo hhi hr
      subst hr'
      revert hne'
      unfold advance_result
      by_cases hkn : k = r.m_newest_version
      · simp [hkn]
      · by_cases hc : k + 1 - r.m_array_start > r.m_commits.length / 2
        · simp [hkn, hc]
        · simp only [hkn, if_false, hc, zero_range_length]
          intro _
          omega

/-! ### The directory -/

theorem map_find_erase_self (m : List (String × Nat)) (key : String) :
    map_find (map_erase m key) key = none := by
  induction m with
  | nil => rfl
  | cons e m ih =>
    obtain ⟨k, v⟩ := e
    by_cases hk : k = key
    · simp only [map_erase, List.filter, hk, ne_eq, not_true_eq_false, decide_False]
      exact ih
    · simp only [map_erase, List.filter, ne_eq, hk, not_false_eq_true, decide_True, map_find,
        if_false]
      exact ih

theorem map_find_erase_ne (m : List (String × Nat)) (key other : String) (h : other ≠ key) :
    map_find (map_erase m key) other = map_find m other := by
  induction m with
  | nil => rfl
  | cons e m ih =>
    obtain ⟨k, v⟩ := e
    by_cases hk : k = key
    · have hko : ¬ k = other := fun h2 => h (h2.symm.trans hk)
      simp only [map_erase, List.filter, hk, ne_eq, not_true_eq_false, decide_False, map_find]
      rw [← hk, if_neg hko]
      rw [hk]
      exact ih
    · simp only [map_erase, List.filter, ne_eq, hk, not_false_eq_true, decide_True, map_find]
      by_cases hko : k = other
      · simp [hko]
      · simp only [hko, if_false]
        exact ih

theorem map_erase_absent (m : List (String × Nat)) (key : String)
    (h : map_find m key = none) : map_erase m key = m := by
  induction m with
  | nil => rfl
  | cons e m ih =>
    obtain ⟨k, v⟩ := e
    by_cases hk : k = key
    · simp [map_find, hk] at h
    · simp only [map_find, hk, if_false] at h
      simp only [map_erase, List.filter, ne_eq, hk, not_false_eq_true, decide_True,
        List.cons.injEq, true_and]
      exact ih h

theorem map_find_assign_self (m : List (String × Nat)) (key : String) (value : Nat) :
    map_find (map_assign m key value) key = some value := by
  simp [map_assign, map_find]

theorem map_find_assign_ne (m : List (String × Nat)) (key other : String) (value : Nat)
    (h : other ≠ key) : map_find (map_assign m key value) other = map_find m other := by
  have hko : ¬ key = other := fun h2 => h h2.symm
  simp only [map_assign, map_find, hko, if_false]
  exact map_find_erase_ne m key other h

theorem get_find_self (d : RegistryRegistry) (filepath : String) (fresh : Nat) :
    map_find (d.get filepath fresh).2.m_registries filepath = some (d.get filepath fresh).1 := by
  unfold RegistryRegistry.get
  cases h : map_find d.m_registries filepath with
  | none => exact map_find_assign_self _ _ _
  | some p => exact h

theorem get_find_ne (d : RegistryRegistry) (filepath other : String) (fresh : Nat)
    (hne : other ≠ filepath) :
    map_find (d.get filepath fresh).2.m_registries other = map_find d.m_registries other := by
  unfold RegistryRegistry.get
  cases h : map_find d.m_registries filepath with
  | none => exact map_find_assign_ne _ _ _ _ hne
  | some p => rfl

/-- The registries a reachable directory constructed itself and still maps are pairwise
distinct objects. -/
theorem DirReachable.distinct {d : RegistryRegistry} {installed : String → Bool}
    (h : DirReachable d installed) :
    ∀ a b p q, a ≠ b → installed a = false → installed b = false →
      map_find d.m_registries a = some p → map_find d.m_registries b = some q → p ≠ q := by
  induction h with
  | init =>
    intro a b p q _ _ _ hp
    simp [RegistryRegistry.globalRegistry, map_find] at hp
  | get d installed filepath fresh _ hfresh ih =>
    intro a b p q hab ha hb hp hq
    cases hfind : map_find d.m_registries filepath with
    | some r0 =>
      have hd : (d.get filepath fresh).2 = d := by simp [RegistryRegistry.get, hfind]
      rw [hd] at hp hq
      have hno : ¬ (some r0 = (none : Option Nat)) := by simp
      simp only [hfind, hno, and_false, if_false] at ha hb
      exact ih a b p q hab ha hb hp hq
    | none =>
      have hval : (d.get filepath fresh).1 = fresh := by simp [RegistryRegistry.get, hfind]
      simp only [hfind, and_true] at ha hb
      by_cases haf : a = filepath
      · have hbf : b ≠ filepath := fun h2 => hab (haf.trans h2.symm)
        rw [haf, get_find_self, hval] at hp
        rw [get_find_ne _ _ _ _ hbf] at hq
        simp only [hbf, if_false] at hb
        cases hp
        exact (hfresh b q hb hq).symm
      · rw [get_find_ne _ _ _ _ haf] at hp
        simp only [haf, if_false] at ha
        by_cases hbf : b = filepath
        · rw [hbf, get_find_self, hval] at hq
          cases hq
          exact hfresh a p ha hp
        · rw [get_find_ne _ _ _ _ hbf] at hq
          simp only [hbf, if_false] at hb
          exact ih a b p q hab ha hb hp hq
  | add d installed filepath registry _ ih =>
    intro a b p q hab ha hb hp hq
    have haf : a ≠ filepath := by
      intro h2; simp [h2] at ha
    have hbf : b ≠ filepath := by
      intro h2; simp [h2] at hb
    simp only [haf, if_false] at ha
    simp only [hbf, if_false] at hb
    simp only [RegistryRegistry.add, map_find_assign_ne _ _ _ _ haf] at hp
    simp only [RegistryRegistry.add, map_find_assign_ne _ _ _ _ hbf] at hq
    exact ih a b p q hab ha hb hp hq
  | remove d installed filepath _ ih =>
    intro a b p q hab ha hb hp hq
    have haf : a ≠ filepath := by
      intro h2
      rw [h2] at hp
      simp [RegistryRegistry.remove, map_find_erase_self] at hp
    have hbf : b ≠ filepath := by
      intro h2
      rw [h2] at hq
      simp [RegistryRegistry.remove, map_find_erase_self] at hq
    simp only [haf, if_false] at ha
    simp only [hbf, if_false] at hb
    simp only [RegistryRegistry.remove, map_find_erase_ne _ _ _ haf] at hp
    simp only [RegistryRegistry.remove, map_find_erase_ne _ _ _ hbf] at hq
    exact ih a b p q hab ha hb hp hq

theorem get_of_find (d : RegistryRegistry) (filepath : String) (fresh p : Nat)
    (h : map_find d.m_registries filepath = some p) : d.get filepath fresh = (p, d) := by
  simp [RegistryRegistry.get, h]

/-! ### The collector -/

/-- The contract of `reserve_extra`: afterwards the capacity covers the used bytes and the
extra bytes, and the used bytes are the same. -/
theorem reserve_extra_spec (g : Growth) (b : Buffer) (used extra : Nat)
    (hu : used ≤ b.m_bytes.length) :
    used + extra ≤ (b.reserve_extra g used extra).m_bytes.length ∧
    (b.reserve_extra g used extra).m_bytes.take used = b.m_bytes.take used := by
  unfold Buffer.reserve_extra Buffer.size
  by_cases h : used + extra ≤ b.m_bytes.length
  · simp [h]
  · have hlen : (b.m_bytes.take used).length = used := by
      rw [List.length_take]; omega
    simp only [h, if_false, hlen, List.length_append, List.length_replicate]
    constructor
    · have := Nat.le_max_right (g.capacity b.m_bytes.length) (used + extra)
      omega
    · exact List.take_left' hlen

theorem begin_collecting (c : WriteLogCollector) :
    Collecting c.do_begin_write_transact [] ∧
    c.do_begin_write_transact.m_registry = c.m_registry := by
  simp [Collecting, WriteLogCollector.do_begin_write_transact, Buffer.data]

/-- One append inside a transaction returns and extends the written bytes. -/
theorem append_collecting (g : Growth) (c : WriteLogCollector) (written data : List Nat)
    (h : Collecting c written) :
    ∃ c', c.do_transact_log_append g data = .ok c' ∧ Collecting c' (written ++ data) ∧
      c'.m_registry = c.m_registry := by
  obtain ⟨h1, h2, h3⟩ := h
  have hsize : c.m_transact_log_free_begin - c.m_transact_log_buffer.m_data
      = written.length := by omega
  obtain ⟨hcap, hkeep⟩ := reserve_extra_spec g c.m_transact_log_buffer written.length
    data.length h2
  rw [h3] at hkeep
  have hin : (c.m_transact_log_buffer.reserve_extra g written.length data.length).m_data
        ≤ (c.m_transact_log_buffer.reserve_extra g written.length data.length).m_data
          + written.length ∧
      (c.m_transact_log_buffer.reserve_extra g written.length data.length).m_data
          + written.length
          - (c.m_transact_log_buffer.reserve_extra g written.length data.length).m_data
          + data.length
        ≤ (c.m_transact_log_buffer.reserve_extra g written.length data.length).size := by
    unfold Buffer.size
    omega
  have hstep : c.do_transact_log_append g data = .ok
      { m_transact_log_buffer :=
          { m_data :=
              (c.m_transact_log_buffer.reserve_extra g written.length data.length).m_data,
            m_bytes := written ++ data ++
              (c.m_transact_log_buffer.reserve_extra g written.length data.length).m_bytes.drop
                (written.length + data.length) },
        m_transact_log_free_begin :=
          (c.m_transact_log_buffer.reserve_extra g written.length data.length).m_data
            + written.length + data.length,
        m_transact_log_free_end :=
          (c.m_transact_log_buffer.reserve_extra g written.length data.length).m_data
            + (c.m_transact_log_buffer.reserve_extra g written.length data.length).size,
        m_registry := c.m_registry } := by
    unfold WriteLogCollector.do_transact_log_append WriteLogCollector.transact_log_reserve
    simp only [Buffer.data, hsize]
    unfold Buffer.copy_in
    rw [if_pos hin]
    simp only [Nat.add_sub_cancel_left, hkeep]
  refine ⟨_, hstep, ⟨?_, ?_, ?_⟩, rfl⟩
  · simp only [List.length_append]; omega
  · simp only [List.length_append, List.length_drop]; omega
  · have hl : (written ++ data).length = (written ++ data).length := rfl
    exact List.take_left' hl

/-- A sequence of appends inside a transaction returns and writes the concatenation. -/
theorem append_all_collecting (g : Growth) :
    ∀ (ds : List (List Nat)) (c : WriteLogCollector) (written : List Nat),
      Collecting c written →
      ∃ c', append_all g c ds = .ok c' ∧ Collecting c' (written ++ ds.flatten) ∧
        c'.m_registry = c.m_registry := by
  intro ds
  induction ds with
  | nil =>
    intro c written h
    exact ⟨c, rfl, by simpa using h, rfl⟩
  | cons d ds ih =>
    intro c written h
    obtain ⟨c1, h1, hc1, hr1⟩ := append_collecting g c written d h
    obtain ⟨c2, h2, hc2, hr2⟩ := ih c1 (written ++ d) hc1
    refine ⟨c2, ?_, ?_, hr2.trans hr1⟩
    · simp only [append_all, h1]
      exact h2
    · simpa [List.append_assoc] using hc2

/-- The commit of a collecting transaction hands the block and the number of written bytes
to `add_commit`, under the 64-bit successor of the version it is given. -/
theorem commit_collecting (c : WriteLogCollector) (written : List Nat) (orig_version : Nat)
    (h : Collecting c written) :
    c.do_commit_write_transact orig_version =
      match c.m_registry.add_commit ((orig_version + 1) % VERSION_MOD)
          c.m_transact_log_buffer.m_data written.length with
      | .error e => .error e
      | .ok registry =>
        .ok ((orig_version + 1) % VERSION_MOD,
             { c with m_transact_log_buffer := { m_data := 0, m_bytes := [] },
                      m_registry := registry }) := by
  obtain ⟨h1, _, _⟩ := h
  have hsize : c.m_transact_log_free_begin - c.m_transact_log_buffer.m_data
      = written.length := by omega
  simp only [WriteLogCollector.do_commit_write_transact, Buffer.release, hsize]

theorem add_commit_ok_commits (r r' : WriteLogRegistry) (version data sz : Nat)
    (h : r.add_commit version data sz = .ok r') :
    r'.m_commits = r.m_commits ++ [⟨sz, data⟩] ∧ r'.m_newest_version = version := by
  unfold WriteLogRegistry.add_commit at h
  split at h
  · cases h; exact ⟨rfl, rfl⟩
  · split at h
    · cases h; exact ⟨rfl, rfl⟩
    · cases h

theorem sample_four_reachable : Reachable sample_four sample_four_log :=
  Reachable.add_commit sample_abc sample_abc_log 4 104 4 _ sample_abc_reachable
    (by decide) (by decide) (fun _ => rfl) rfl

/-- An advance never makes the vector longer. -/
theorem advance_result_length_le (r : WriteLogRegistry) (k : Nat) :
    (advance_result r k).1.m_commits.length ≤ r.m_commits.length := by
  unfold advance_result
  by_cases hkn : k = r.m_newest_version
  · simp [hkn]
  · by_cases hc : k + 1 - r.m_array_start > r.m_commits.length / 2
    · simp only [hkn, if_false, hc, if_true, List.length_take, List.length_drop,
        zero_range_length]
      omega
    · simp only [hkn, if_false, hc, zero_range_length]
      exact Nat.le_refl _

/-- The storage bound of a reachable state: an empty vector on an empty window, and on a
non-empty one a vector that ends at the newest version and is at most twice as long as
the window. -/
theorem Reachable.storage_bound {r : WriteLogRegistry} {g : Nat → Option CommitEntry}
    (hr : Reachable r g) :
    (r.m_oldest_version = 0 → r.m_commits.length = 0) ∧
    (r.m_oldest_version ≠ 0 →
      r.m_commits.length ≤ 2 * (r.m_newest_version - r.m_oldest_version + 1) ∧
      r.m_commits.length = r.m_newest_version - r.m_array_start + 1) := by
  have h := hr.strongInv
  constructor
  · intro h0
    rw [(h.empty h0).1]
    rfl
  · intro hne
    obtain ⟨hw1, hw2, hw3, hw4, hw5⟩ := h.window hne
    have hp := hr.unused_le_half hne
    exact ⟨by omega, hw4⟩

/-! ## The claims -/

/-- C1 (round trip): for every list of `N` payloads with `N + 1 < 2 ^ 64` (a vector of
entries cannot be longer), the calls `add_commit(1, p1)`, ..., `add_commit(N, pN)` on a
new registry all return, and `get_commit_entries(0, N)` then fails no assertion and
writes exactly `N` views, the `i`-th being the address and size of the `i`-th payload. -/
theorem C1_round_trip (ps : List CommitEntry) (hN : ps.length + 1 < VERSION_MOD) :
    ∃ r views, add_commits WriteLogRegistry.ctor 1 ps = .ok r ∧
      r.get_commit_entries 0 ps.length = .ok views ∧
      views.length = ps.length ∧
      views = ps.map CommitEntry.view ∧
      ∀ (i : Nat) (p : CommitEntry), ps[i]? = some p → views[i]? = some p.view := by
  cases ps with
  | nil =>
    refine ⟨WriteLogRegistry.ctor, [], rfl, rfl, rfl, rfl, ?_⟩
    intro i p h; simp at h
  | cons p ps =>
    have hlen : (p :: ps).length = ps.length + 1 := rfl
    rw [hlen] at hN
    refine ⟨_, _, add_commits_ctor p ps (by omega), ?_, ?_, rfl, ?_⟩
    · rw [get_commit_entries_window _ 0 _ ?_ (by simp) (by simp) (by simp)
        (by unfold VERSION_MOD; norm_num) (by omega)]
      · simp
      · intro _
        refine ⟨Nat.le_refl _, by dsimp only; omega, ?_⟩
        intro v hv1 hv2
        dsimp only at hv1 hv2 ⊢
        simp only [List.length_cons]
        omega
    · simp
    · intro i q h
      simp only [List.getElem?_map, h, Option.map_some']

/-- C1, at the payloads "a", "bb", "ccc" stored at the addresses 101, 102, 103. -/
theorem C1_round_trip_witness :
    [(⟨1, 101⟩ : CommitEntry), ⟨2, 102⟩, ⟨3, 103⟩].length + 1 < VERSION_MOD ∧
    ∃ r views, add_commits WriteLogRegistry.ctor 1 [⟨1, 101⟩, ⟨2, 102⟩, ⟨3, 103⟩] = .ok r ∧
      r.get_commit_entries 0 [(⟨1, 101⟩ : CommitEntry), ⟨2, 102⟩, ⟨3, 103⟩].length = .ok views ∧
      views.length = [(⟨1, 101⟩ : CommitEntry), ⟨2, 102⟩, ⟨3, 103⟩].length ∧
      views = [(⟨1, 101⟩ : CommitEntry), ⟨2, 102⟩, ⟨3, 103⟩].map CommitEntry.view ∧
      ∀ (i : Nat) (p : CommitEntry), [(⟨1, 101⟩ : CommitEntry), ⟨2, 102⟩, ⟨3, 103⟩][i]? = some p →
        views[i]? = some p.view :=
  ⟨by decide, C1_round_trip [⟨1, 101⟩, ⟨2, 102⟩, ⟨3, 103⟩] (by decide)⟩

/-- C2 (retained entries survive a watermark advance), as amended: for every reachable
registry with a non-empty window and `newest_version < 2 ^ 64 - 1`, and every `k` with
`oldest_version - 1 <= k <= newest_version`, the call `set_oldest_version_needed(k)`
returns; after it `get_commit_entries(k, newest_version)` returns `newest_version - k`
views, the view of each version `v` in `(k, newest_version]` being the address and size its
slot held before the call (the same views the fetch returned before the call); every
version `<= k` of the old window is outside the new window and its non-null address was
passed to `delete[]`. -/
theorem C2_retained_entries_survive (r : WriteLogRegistry) (g : Nat → Option CommitEntry)
    (hr : Reachable r g) (hne : r.m_oldest_version ≠ 0)
    (hb : r.m_newest_version + 1 < VERSION_MOD) (k : Nat)
    (hlo : r.m_oldest_version ≤ k + 1) (hhi : k ≤ r.m_newest_version) :
    ∃ r' deleted views,
      r.set_oldest_version_needed k = .ok (r', deleted) ∧
      r'.get_commit_entries k r.m_newest_version = .ok views ∧
      views.length = r.m_newest_version - k ∧
      (∀ v, k < v → v ≤ r.m_newest_version →
        ∃ e, r.m_commits[v - r.m_array_start]? = some e ∧
          views[v - (k + 1)]? = some e.view) ∧
      r.get_commit_entries k r.m_newest_version = .ok views ∧
      (∀ v, r.m_oldest_version ≤ v → v ≤ k →
        r'.is_a_known_commit v = false ∧
        ∀ e, r.m_commits[v - r.m_array_start]? = some e → e.data ≠ 0 → e.data ∈ deleted) := by
  have h := hr.strongInv
  obtain ⟨hw1, hw2, hw3, hw4, hw5⟩ := h.window hne
  have hset := h.set_oldest_version_needed_ok k hne hlo hhi (by omega)
  have h' := h.advance k hne hlo hhi
  have hold := advance_result_oldest r k
  have hnew := advance_result_newest r k
  refine ⟨(advance_result r k).1, (advance_result r k).2,
    ((r.m_commits.drop (k + 1 - r.m_array_start)).take (r.m_newest_version - k)).map
      CommitEntry.view, hset, ?_, ?_, ?_, ?_, ?_⟩
  · by_cases hkn : k = r.m_newest_version
    · rw [get_commit_entries_none _ _ _ (by omega) (by omega)]
      simp [hkn]
    · rw [if_neg hkn] at hold
      rw [get_commit_entries_window _ k _ h'.windowInv (by omega) (by omega) (by omega)
        (by omega) (by omega), advance_result_window r k hw2 hlo (by omega)]
  · simp only [List.length_map, List.length_take, List.length_drop]
    omega
  · intro v hv1 hv2
    have hlt : v - r.m_array_start < r.m_commits.length := by omega
    refine ⟨r.m_commits[v - r.m_array_start], List.getElem?_eq_getElem hlt, ?_⟩
    have hlt2 : v - (k + 1) < r.m_newest_version - k := by omega
    have hidx : k + 1 - r.m_array_start + (v - (k + 1)) = v - r.m_array_start := by omega
    rw [List.getElem?_map, List.getElem?_take_of_lt hlt2, List.getElem?_drop, hidx,
      List.getElem?_eq_getElem hlt]
    rfl
  · exact get_commit_entries_window r k _ h.windowInv hne hlo (Nat.le_refl _) (by omega) hb
  · intro v hv1 hv2
    constructor
    · rw [← Bool.not_eq_true, is_a_known_commit_iff, hold]
      split <;> omega
    · intro e he hd
      rw [advance_result_deleted]
      exact mem_freed_range _ _ _ (v - r.m_array_start) e (by omega) (by omega) he hd

/-- C2, at the registry holding the versions 1, 2, 3 and the watermark 1. -/
theorem C2_retained_entries_survive_witness :
    Reachable sample_abc sample_abc_log ∧ sample_abc.m_oldest_version ≠ 0 ∧
    sample_abc.m_newest_version + 1 < VERSION_MOD ∧
    sample_abc.m_oldest_version ≤ 1 + 1 ∧ 1 ≤ sample_abc.m_newest_version ∧
    ∃ r' deleted views,
      sample_abc.set_oldest_version_needed 1 = .ok (r', deleted) ∧
      r'.get_commit_entries 1 sample_abc.m_newest_version = .ok views ∧
      views.length = sample_abc.m_newest_version - 1 ∧
      (∀ v, 1 < v → v ≤ sample_abc.m_newest_version →
        ∃ e, sample_abc.m_commits[v - sample_abc.m_array_start]? = some e ∧
          views[v - (1 + 1)]? = some e.view) ∧
      sample_abc.get_commit_entries 1 sample_abc.m_newest_version = .ok views ∧
      (∀ v, sample_abc.m_oldest_version ≤ v → v ≤ 1 →
        r'.is_a_known_commit v = false ∧
        ∀ e, sample_abc.m_commits[v - sample_abc.m_array_start]? = some e → e.data ≠ 0 →
          e.data ∈ deleted) :=
  ⟨sample_abc_reachable, by decide, by decide, by decide, by decide,
    C2_retained_entries_survive sample_abc sample_abc_log sample_abc_reachable
      (by decide) (by decide) 1 (by decide) (by decide)⟩

/-- C2 as stated fails in two places.  On the reachable registry left by `add_commit(1)` and
`set_oldest_version_needed(1)` the window is empty while `newest_version` is still 1: the
watermark 0 lies in `[oldest_version - 1, newest_version]`, the advance returns, and
`get_commit_entries(0, 1)` fails its first assertion instead of returning one view.  On the
reachable registry seeded at version `2 ^ 64 - 1` the watermark `2 ^ 64 - 2` is
`oldest_version - 1`, the advance returns, and `get_commit_entries(2 ^ 64 - 2, 2 ^ 64 - 1)`
fails an assertion after its loop counter wrapped to 0. -/
theorem C2_retained_entries_survive_counterexample :
    (Reachable sample_released sample_released_log ∧
      sample_released.m_oldest_version ≤ 0 + 1 ∧ 0 ≤ sample_released.m_newest_version ∧
      sample_released.set_oldest_version_needed 0 = .ok (sample_released, []) ∧
      sample_released.get_commit_entries 0 sample_released.m_newest_version
        = .error .assertion) ∧
    (Reachable (sample_seeded 18446744073709551615) (sample_seeded_log 18446744073709551615) ∧
      (sample_seeded 18446744073709551615).m_oldest_version ≤ 18446744073709551614 + 1 ∧
      18446744073709551614 ≤ (sample_seeded 18446744073709551615).m_newest_version ∧
      (sample_seeded 18446744073709551615).set_oldest_version_needed 18446744073709551614
        = .ok (sample_seeded 18446744073709551615, []) ∧
      (sample_seeded 18446744073709551615).get_commit_entries 18446744073709551614
          (sample_seeded 18446744073709551615).m_newest_version = .error .assertion) :=
  ⟨⟨sample_released_reachable, by decide, by decide, rfl, rfl⟩,
    ⟨sample_seeded_reachable _ (by decide) (by decide), by decide, by decide, rfl, rfl⟩⟩

/-- C3 (full release and reseed), as amended: for every reachable registry with a non-empty
window and `newest_version = N < 2 ^ 64 - 2`, the call `set_oldest_version_needed(N)`
returns and leaves the registry empty (`oldest_version = 0`, `m_array_start = 0`, backing
vector of length 0); a following `add_commit(N + 1, p)` returns and sets
`oldest_version = newest_version = m_array_start = N + 1`, and
`get_commit_entries(N, N + 1)` then returns exactly the view of `p`. -/
theorem C3_full_release_and_reseed (r : WriteLogRegistry) (g : Nat → Option CommitEntry)
    (hr : Reachable r g) (hne : r.m_oldest_version ≠ 0)
    (hb : r.m_newest_version + 2 < VERSION_MOD) (data sz : Nat) :
    ∃ r1 deleted r2,
      r.set_oldest_version_needed r.m_newest_version = .ok (r1, deleted) ∧
      r1.m_oldest_version = 0 ∧ r1.m_array_start = 0 ∧ r1.m_commits.length = 0 ∧
      r1.add_commit (r.m_newest_version + 1) data sz = .ok r2 ∧
      r2.m_oldest_version = r.m_newest_version + 1 ∧
      r2.m_newest_version = r.m_newest_version + 1 ∧
      r2.m_array_start = r.m_newest_version + 1 ∧
      r2.get_commit_entries r.m_newest_version (r.m_newest_version + 1)
        = .ok [⟨data, sz⟩] := by
  have h := hr.strongInv
  obtain ⟨hw1, hw2, hw3, hw4, hw5⟩ := h.window hne
  have hset := h.set_oldest_version_needed_ok r.m_newest_version hne (by omega)
    (Nat.le_refl _) (by omega)
  have h1 := advance_result_newest_watermark r
  obtain ⟨r2, hadd, hr2, hget⟩ := add_commit_seed_fetch (advance_result r r.m_newest_version).1
    (r.m_newest_version + 1) data sz (by rw [h1]) (by rw [h1]) (by omega) (by omega)
  refine ⟨(advance_result r r.m_newest_version).1, (advance_result r r.m_newest_version).2,
    r2, hset, by rw [h1], by rw [h1], by rw [h1]; rfl, hadd, by rw [hr2], by rw [hr2],
    by rw [hr2], ?_⟩
  rw [Nat.add_sub_cancel] at hget
  exact hget

/-- C3, at the registry holding the versions 1, 2, 3 and the payload "d" at address 104. -/
theorem C3_full_release_and_reseed_witness :
    Reachable sample_abc sample_abc_log ∧ sample_abc.m_oldest_version ≠ 0 ∧
    sample_abc.m_newest_version + 2 < VERSION_MOD ∧
    ∃ r1 deleted r2,
      sample_abc.set_oldest_version_needed sample_abc.m_newest_version = .ok (r1, deleted) ∧
      r1.m_oldest_version = 0 ∧ r1.m_array_start = 0 ∧ r1.m_commits.length = 0 ∧
      r1.add_commit (sample_abc.m_newest_version + 1) 104 1 = .ok r2 ∧
      r2.m_oldest_version = sample_abc.m_newest_version + 1 ∧
      r2.m_newest_version = sample_abc.m_newest_version + 1 ∧
      r2.m_array_start = sample_abc.m_newest_version + 1 ∧
      r2.get_commit_entries sample_abc.m_newest_version (sample_abc.m_newest_version + 1)
        = .ok [⟨104, 1⟩] :=
  ⟨sample_abc_reachable, by decide, by decide,
    C3_full_release_and_reseed sample_abc sample_abc_log sample_abc_reachable
      (by decide) (by decide) 104 1⟩

/-- C3 as stated fails at `N = 2 ^ 64 - 2`: on the reachable registry seeded at that version
the full release returns and `add_commit(2 ^ 64 - 1, p)` returns, but
`get_commit_entries(2 ^ 64 - 2, 2 ^ 64 - 1)` fails an assertion, its loop counter having
wrapped to 0 after the one requested version, instead of returning the view of `p`. -/
theorem C3_full_release_and_reseed_counterexample :
    Reachable (sample_seeded 18446744073709551614) (sample_seeded_log 18446744073709551614) ∧
    (sample_seeded 18446744073709551614).m_oldest_version ≠ 0 ∧
    (sample_seeded 18446744073709551614).m_newest_version = 18446744073709551614 ∧
    (sample_seeded 18446744073709551614).set_oldest_version_needed 18446744073709551614
      = .ok ({ m_commits := [], m_array_start := 0, m_oldest_version := 0,
               m_newest_version := 18446744073709551614 }, [101]) ∧
    ({ m_commits := [], m_array_start := 0, m_oldest_version := 0,
       m_newest_version := 18446744073709551614 } : WriteLogRegistry).add_commit
        18446744073709551615 104 1
      = .ok { m_commits := [⟨1, 104⟩], m_array_start := 18446744073709551615,
              m_oldest_version := 18446744073709551615,
              m_newest_version := 18446744073709551615 } ∧
    ({ m_commits := [⟨1, 104⟩], m_array_start := 18446744073709551615,
       m_oldest_version := 18446744073709551615,
       m_newest_version := 18446744073709551615 } : WriteLogRegistry).get_commit_entries
        18446744073709551614 18446744073709551615 = .error .assertion :=
  ⟨sample_seeded_reachable _ (by decide) (by decide), by decide, rfl, rfl, rfl, rfl⟩

/-- C4 (hard reset followed by a commit), evaluated on the code: after `add_commit(1, "a")`,
`reset_log_management()` frees the entry but keeps the vector at length 1; the following
`add_commit(1, p)` appends `p` at index 1 and sets `m_array_start = 1`, so
`get_commit_entries(0, 1)` passes both assertions and returns the freed slot at index 0,
a null view of size 0, where a new registry returns the view of `p`. -/
theorem C4_reset_then_commit_returns_freed_slot :
    (sample_seeded 1).reset_log_management
      = .ok ({ m_commits := [⟨0, 0⟩], m_array_start := 1, m_oldest_version := 0,
               m_newest_version := 0 }, [101]) ∧
    ({ m_commits := [⟨0, 0⟩], m_array_start := 1, m_oldest_version := 0,
       m_newest_version := 0 } : WriteLogRegistry).add_commit 1 104 1
      = .ok { m_commits := [⟨0, 0⟩, ⟨1, 104⟩], m_array_start := 1, m_oldest_version := 1,
              m_newest_version := 1 } ∧
    ({ m_commits := [⟨0, 0⟩, ⟨1, 104⟩], m_array_start := 1, m_oldest_version := 1,
       m_newest_version := 1 } : WriteLogRegistry).get_commit_entries 0 1
      = .ok [⟨0, 0⟩] ∧
    WriteLogRegistry.ctor.add_commit 1 104 1
      = .ok { m_commits := [⟨1, 104⟩], m_array_start := 1, m_oldest_version := 1,
              m_newest_version := 1 } ∧
    ({ m_commits := [⟨1, 104⟩], m_array_start := 1, m_oldest_version := 1,
       m_newest_version := 1 } : WriteLogRegistry).get_commit_entries 0 1
      = .ok [⟨104, 1⟩] :=
  ⟨rfl, rfl, rfl, rfl, rfl⟩

/-- C5 (window invariant): in every reachable state, `oldest_version = 0` exactly when no
version is retained; and when the window is non-empty, `m_array_start <= oldest_version
<= newest_version`, every version `v` of `[oldest_version, newest_version]` has its index
`v - m_array_start` inside the backing vector, the slot there holding the entry that was
committed for `v`, and `newest_version - oldest_version + 1` is at most the length of the
backing vector. -/
theorem C5_window_invariant (r : WriteLogRegistry) (g : Nat → Option CommitEntry)
    (hr : Reachable r g) :
    (r.m_oldest_version = 0 ↔ ∀ v, g v = none) ∧
    (r.m_oldest_version ≠ 0 →
      r.m_array_start ≤ r.m_oldest_version ∧ r.m_oldest_version ≤ r.m_newest_version ∧
      (∀ v, r.m_oldest_version ≤ v → v ≤ r.m_newest_version →
        v - r.m_array_start < r.m_commits.length ∧
        ∃ e, g v = some e ∧ r.m_commits[v - r.m_array_start]? = some e) ∧
      r.m_newest_version - r.m_oldest_version + 1 ≤ r.m_commits.length) := by
  have h := hr.strongInv
  constructor
  · constructor
    · intro h0; exact (h.empty h0).2.2
    · intro hall
      by_contra hne
      obtain ⟨hw1, hw2, hw3, hw4, hw5⟩ := h.window hne
      have hg := hw5 r.m_oldest_version
      have hlt : r.m_oldest_version - r.m_array_start < r.m_commits.length := by omega
      rw [hall, if_pos ⟨Nat.le_refl _, hw3⟩, List.getElem?_eq_getElem hlt] at hg
      cases hg
  · intro hne
    obtain ⟨hw1, hw2, hw3, hw4, hw5⟩ := h.window hne
    refine ⟨hw2, hw3, ?_, by omega⟩
    intro v hv1 hv2
    have hlt : v - r.m_array_start < r.m_commits.length := by omega
    refine ⟨hlt, r.m_commits[v - r.m_array_start], ?_, List.getElem?_eq_getElem hlt⟩
    rw [hw5 v, if_pos ⟨hv1, hv2⟩, List.getElem?_eq_getElem hlt]

/-- C5, at the registry holding the versions 1, 2, 3. -/
theorem C5_window_invariant_witness :
    Reachable sample_abc sample_abc_log ∧
    ((sample_abc.m_oldest_version = 0 ↔ ∀ v, sample_abc_log v = none) ∧
    (sample_abc.m_oldest_version ≠ 0 →
      sample_abc.m_array_start ≤ sample_abc.m_oldest_version ∧
      sample_abc.m_oldest_version ≤ sample_abc.m_newest_version ∧
      (∀ v, sample_abc.m_oldest_version ≤ v → v ≤ sample_abc.m_newest_version →
        v - sample_abc.m_array_start < sample_abc.m_commits.length ∧
        ∃ e, sample_abc_log v = some e ∧
          sample_abc.m_commits[v - sample_abc.m_array_start]? = some e) ∧
      sample_abc.m_newest_version - sample_abc.m_oldest_version + 1
        ≤ sample_abc.m_commits.length)) :=
  ⟨sample_abc_reachable, C5_window_invariant sample_abc sample_abc_log sample_abc_reachable⟩

/-- C6 (a watermark below the current window), evaluated on the code.  The registry
`sample_tail` is reached by four commits and `set_oldest_version_needed(2)` and satisfies
the window invariant with `oldest_version = 3`.  The call `set_oldest_version_needed(0)`,
with `0 < oldest_version - 1`, frees nothing but sets `oldest_version` back to 1, so the
window now covers the released slots of the versions 1 and 2, which a fetch then returns
as null views.  On the registry seeded at version 5 the call
`set_oldest_version_needed(2)` fails the assertion of `to_index`, version 3 being below
`m_array_start = 5`. -/
theorem C6_watermark_below_window_moves_oldest_back :
    add_commits WriteLogRegistry.ctor 1 [⟨1, 101⟩, ⟨2, 102⟩, ⟨3, 103⟩, ⟨4, 104⟩]
      = .ok { m_commits := [⟨1, 101⟩, ⟨2, 102⟩, ⟨3, 103⟩, ⟨4, 104⟩], m_array_start := 1,
              m_oldest_version := 1, m_newest_version := 4 } ∧
    ({ m_commits := [⟨1, 101⟩, ⟨2, 102⟩, ⟨3, 103⟩, ⟨4, 104⟩], m_array_start := 1,
       m_oldest_version := 1, m_newest_version := 4 }
      : WriteLogRegistry).set_oldest_version_needed 2 = .ok (sample_tail, [101, 102]) ∧
    WindowInv sample_tail ∧ sample_tail.m_oldest_version = 3 ∧
    sample_tail.set_oldest_version_needed 0
      = .ok ({ sample_tail with m_oldest_version := 1 }, []) ∧
    ({ sample_tail with m_oldest_version := 1 } : WriteLogRegistry).get_commit_entries 0 4
      = .ok [⟨0, 0⟩, ⟨0, 0⟩, ⟨103, 3⟩, ⟨104, 4⟩] ∧
    WindowInv (sample_seeded 5) ∧
    (sample_seeded 5).set_oldest_version_needed 2 = .error .assertion :=
  ⟨rfl, rfl, sample_tail_windowInv, rfl, rfl, rfl,
    (sample_seeded_reachable 5 (by decide) (by decide)).strongInv.windowInv, rfl⟩

/-- C7 (idempotence of the watermark advance): for every registry that satisfies the window
invariant (an empty window included) and every `k` with
`oldest_version - 1 <= k <= newest_version`, whenever `set_oldest_version_needed(k)`
returns, a second `set_oldest_version_needed(k)` returns the very same registry
(`oldest_version`, `newest_version`, `m_array_start` and the backing vector) and deletes
nothing; and the first call does return unless `k` is the largest 64-bit value. -/
theorem C7_advance_idempotent (r : WriteLogRegistry) (k : Nat)
    (hinv : WindowInv r) (ht : Typed r)
    (hlo : r.m_oldest_version ≤ k + 1) (hhi : k ≤ r.m_newest_version) :
    (∀ r' deleted, r.set_oldest_version_needed k = .ok (r', deleted) →
      r'.set_oldest_version_needed k = .ok (r', [])) ∧
    (k + 1 < VERSION_MOD → ∃ r' deleted, r.set_oldest_version_needed k = .ok (r', deleted)) := by
  obtain ⟨ht1, ht2, ht3, ht4⟩ := ht
  by_cases hne : r.m_oldest_version = 0
  · have hh : r.holds_some_commits = false := by
      simp [WriteLogRegistry.holds_some_commits, hne]
    have hset : r.set_oldest_version_needed k = .ok (r, []) := by
      simp [WriteLogRegistry.set_oldest_version_needed, hh]
    refine ⟨?_, fun _ => ⟨r, [], hset⟩⟩
    intro r' deleted h
    rw [hset] at h
    simp only [Except.ok.injEq, Prod.mk.injEq] at h
    rw [← h.1]
    exact hset
  · by_cases hk : k + 1 < VERSION_MOD
    · have hset := set_oldest_version_needed_eq r k hinv hne ht4 ht3 hlo hhi hk
      have hs := (hinv hne).1
      refine ⟨?_, fun _ => ⟨_, _, hset⟩⟩
      intro r' deleted h
      rw [hset] at h
      simp only [Except.ok.injEq] at h
      have h1 : (advance_result r k).1 = r' := by rw [h]
      rw [← h1]
      exact set_advance_result_again r k hk (by omega)
    · have hkm : k = VERSION_MOD - 1 := by omega
      refine ⟨?_, fun h => absurd h hk⟩
      intro r' deleted h
      rw [hkm] at h
      exact absurd h (set_oldest_version_needed_max r _ hne ht2)

/-- C7, at the registry holding the versions 1, 2, 3 and the watermark 2. -/
theorem C7_advance_idempotent_witness :
    WindowInv sample_abc ∧ Typed sample_abc ∧
    sample_abc.m_oldest_version ≤ 2 + 1 ∧ 2 ≤ sample_abc.m_newest_version ∧
    ((∀ r' deleted, sample_abc.set_oldest_version_needed 2 = .ok (r', deleted) →
      r'.set_oldest_version_needed 2 = .ok (r', [])) ∧
    (2 + 1 < VERSION_MOD →
      ∃ r' deleted, sample_abc.set_oldest_version_needed 2 = .ok (r', deleted))) :=
  ⟨sample_abc_windowInv, by decide, by decide, by decide,
    C7_advance_idempotent sample_abc 2 sample_abc_windowInv (by decide) (by decide)
      (by decide)⟩

/-- C8 (contiguity is enforced): for every registry and every version `v`,
`add_commit(v, buf)` fails, and then by its assertion, if and only if the window is
non-empty (`oldest_version != 0`) and `v` differs from `newest_version + 1` (the 64-bit sum
the code computes, which is the plain sum whenever `newest_version < 2 ^ 64 - 1`); on an
empty window it returns whatever `v` is. -/
theorem C8_contiguity_enforced (r : WriteLogRegistry) (v data sz : Nat) :
    ((∃ e, r.add_commit v data sz = .error e) ↔
      (r.m_oldest_version ≠ 0 ∧ v ≠ (1 + r.m_newest_version) % VERSION_MOD)) ∧
    (∀ e, r.add_commit v data sz = .error e → e = .assertion) ∧
    (r.m_oldest_version = 0 → ∃ r', r.add_commit v data sz = .ok r') ∧
    (r.m_newest_version + 1 < VERSION_MOD →
      ((∃ e, r.add_commit v data sz = .error e) ↔
        (r.m_oldest_version ≠ 0 ∧ v ≠ r.m_newest_version + 1))) := by
  have key : (∃ e, r.add_commit v data sz = .error e) ↔
      (r.m_oldest_version ≠ 0 ∧ v ≠ (1 + r.m_newest_version) % VERSION_MOD) := by
    by_cases hne : r.m_oldest_version = 0
    · simp [WriteLogRegistry.add_commit, WriteLogRegistry.holds_some_commits, hne]
    · by_cases hv : v = (1 + r.m_newest_version) % VERSION_MOD
      · simp [WriteLogRegistry.add_commit, WriteLogRegistry.holds_some_commits, hne, ← hv]
      · simp [WriteLogRegistry.add_commit, WriteLogRegistry.holds_some_commits, hne, hv]
  refine ⟨key, ?_, ?_, ?_⟩
  · intro e h
    unfold WriteLogRegistry.add_commit at h
    split at h
    · cases h
    · split at h
      · cases h
      · cases h; rfl
  · intro hne
    refine ⟨{ m_commits := r.m_commits ++ [⟨sz, data⟩], m_array_start := v,
              m_oldest_version := v, m_newest_version := v }, ?_⟩
    simp [WriteLogRegistry.add_commit, WriteLogRegistry.holds_some_commits, hne]
  · intro hb
    rw [key, Nat.mod_eq_of_lt (by omega), Nat.add_comm 1]

/-- C9 (out-of-window fetches fail, in-window fetches cannot), as amended: for every registry
satisfying the window invariant and every `from`, `to` below `2 ^ 64 - 1`,
`get_commit_entries(from, to)` fails, and then by an assertion, if and only if some version
`v` with `from < v <= to` is not retained (the window is empty, or `v < oldest_version`, or
`v > newest_version`); in particular when the window is non-empty,
`oldest_version <= from + 1` and `to <= newest_version`, the call returns and writes exactly
`max(to - from, 0)` views. -/
theorem C9_fetch_fails_iff_not_retained (r : WriteLogRegistry) (from_version to_version : Nat)
    (hinv : WindowInv r) (hf : from_version + 1 < VERSION_MOD)
    (ht : to_version + 1 < VERSION_MOD) :
    ((∃ e, r.get_commit_entries from_version to_version = .error e) ↔
      ∃ v, from_version < v ∧ v ≤ to_version ∧
        (r.m_oldest_version = 0 ∨ v < r.m_oldest_version ∨ r.m_newest_version < v)) ∧
    (∀ e, r.get_commit_entries from_version to_version = .error e → e = .assertion) ∧
    (r.m_oldest_version ≠ 0 → r.m_oldest_version ≤ from_version + 1 →
      to_version ≤ r.m_newest_version →
      ∃ views, r.get_commit_entries from_version to_version = .ok views ∧
        views.length = to_version - from_version) := by
  have hfail : (∃ v, from_version < v ∧ v ≤ to_version ∧
        (r.m_oldest_version = 0 ∨ v < r.m_oldest_version ∨ r.m_newest_version < v)) →
      r.get_commit_entries from_version to_version = .error .assertion := by
    rintro ⟨v, hv1, hv2, hv3⟩
    rw [get_commit_entries_eq_run r _ _ hf ht]
    apply run_push_view_fail
    refine ⟨v, List.mem_range'_1.mpr (by omega), ?_⟩
    intro hk
    omega
  have hok : r.m_oldest_version ≠ 0 → r.m_oldest_version ≤ from_version + 1 →
      to_version ≤ r.m_newest_version →
      ∃ views, r.get_commit_entries from_version to_version = .ok views ∧
        views.length = to_version - from_version := by
    intro hne h1 h2
    obtain ⟨hs, ho, hl⟩ := hinv.newest_index hne
    refine ⟨_, get_commit_entries_window r _ _ hinv hne h1 h2 hf ht, ?_⟩
    simp only [List.length_map, List.length_take, List.length_drop]
    omega
  have hiff : (∃ e, r.get_commit_entries from_version to_version = .error e) ↔
      ∃ v, from_version < v ∧ v ≤ to_version ∧
        (r.m_oldest_version = 0 ∨ v < r.m_oldest_version ∨ r.m_newest_version < v) := by
    constructor
    · rintro ⟨e, he⟩
      by_contra hcon
      by_cases hft : from_version < to_version
      · have hne : r.m_oldest_version ≠ 0 := fun h0 =>
          hcon ⟨to_version, hft, Nat.le_refl _, Or.inl h0⟩
        have h1 : r.m_oldest_version ≤ from_version + 1 := by
          by_contra hlt
          exact hcon ⟨from_version + 1, by omega, by omega, Or.inr (Or.inl (by omega))⟩
        have h2 : to_version ≤ r.m_newest_version := by
          by_contra hlt
          exact hcon ⟨to_version, hft, Nat.le_refl _, Or.inr (Or.inr (by omega))⟩
        obtain ⟨views, hv, _⟩ := hok hne h1 h2
        rw [hv] at he
        cases he
      · rw [get_commit_entries_none r _ _ (by omega) hf] at he
        cases he
    · intro h
      exact ⟨_, hfail h⟩
  refine ⟨hiff, ?_, hok⟩
  intro e he
  have h := hfail (hiff.mp ⟨e, he⟩)
  rw [h] at he
  cases he
  rfl

/-- C9, at a fetch of the versions 1 to 3 of the registry holding 1, 2, 3. -/
theorem C9_fetch_fails_iff_not_retained_witness :
    WindowInv sample_abc ∧ 0 + 1 < VERSION_MOD ∧ 3 + 1 < VERSION_MOD ∧
    (((∃ e, sample_abc.get_commit_entries 0 3 = .error e) ↔
      ∃ v, 0 < v ∧ v ≤ 3 ∧
        (sample_abc.m_oldest_version = 0 ∨ v < sample_abc.m_oldest_version ∨
          sample_abc.m_newest_version < v)) ∧
    (∀ e, sample_abc.get_commit_entries 0 3 = .error e → e = .assertion) ∧
    (sample_abc.m_oldest_version ≠ 0 → sample_abc.m_oldest_version ≤ 0 + 1 →
      3 ≤ sample_abc.m_newest_version →
      ∃ views, sample_abc.get_commit_entries 0 3 = .ok views ∧ views.length = 3 - 0)) :=
  ⟨sample_abc_windowInv, by decide, by decide,
    C9_fetch_fails_iff_not_retained sample_abc 0 3 sample_abc_windowInv (by decide)
      (by decide)⟩

/-- C9 as stated fails in three places.  With `from = 2 ^ 64 - 1` no version lies in
`(from, to]`, yet on a new registry `get_commit_entries(2 ^ 64 - 1, 0)` fails an assertion:
`from + 1` wraps to 0.  On the registry seeded at version `2 ^ 64 - 1` the one version of
`(2 ^ 64 - 2, 2 ^ 64 - 1]` is retained, yet the fetch fails an assertion after its counter
wrapped.  On the registry left by `add_commit(1)` and `set_oldest_version_needed(1)`, which
satisfies the window invariant with an empty window, `oldest_version <= 0 + 1` and
`1 <= newest_version` hold, yet `get_commit_entries(0, 1)` fails its first assertion. -/
theorem C9_fetch_fails_iff_not_retained_counterexample :
    (WindowInv WriteLogRegistry.ctor ∧
      (¬ ∃ v, 18446744073709551615 < v ∧ v ≤ 0) ∧
      WriteLogRegistry.ctor.get_commit_entries 18446744073709551615 0
        = .error .assertion) ∧
    (WindowInv (sample_seeded 18446744073709551615) ∧
      (∀ v, 18446744073709551614 < v → v ≤ 18446744073709551615 →
        (sample_seeded 18446744073709551615).is_a_known_commit v = true) ∧
      (sample_seeded 18446744073709551615).get_commit_entries 18446744073709551614
        18446744073709551615 = .error .assertion) ∧
    (WindowInv sample_released ∧
      sample_released.m_oldest_version ≤ 0 + 1 ∧ 1 ≤ sample_released.m_newest_version ∧
      sample_released.get_commit_entries 0 1 = .error .assertion) := by
  refine ⟨⟨?_, ?_, rfl⟩, ⟨?_, ?_, rfl⟩, ⟨?_, by decide, by decide, rfl⟩⟩
  · intro h; exact absurd rfl h
  · rintro ⟨v, h1, h2⟩; omega
  · exact (sample_seeded_reachable _ (by decide) (by decide)).strongInv.windowInv
  · intro v h1 h2
    have hv : v = 18446744073709551615 := by omega
    subst hv
    rfl
  · intro h; exact absurd rfl h

/-- C10 (postcondition and frame of `add_commit`): for every registry and every
`add_commit(v, buf)` with `v >= 1` that meets the contiguity precondition, the call returns
and afterwards `newest_version = v` and the backing vector is the old vector with exactly
the entry `(buf, size)` appended, every earlier slot unchanged; if the window was
non-empty, `oldest_version` and `m_array_start` are unchanged; if it was empty,
`oldest_version = m_array_start = v`. -/
theorem C10_add_commit_postcondition (r : WriteLogRegistry) (v data sz : Nat)
    (hv1 : 1 ≤ v) (hv2 : v < VERSION_MOD)
    (hc : r.m_oldest_version ≠ 0 → v = r.m_newest_version + 1) :
    ∃ r', r.add_commit v data sz = .ok r' ∧
      r'.m_newest_version = v ∧
      r'.m_commits = r.m_commits ++ [⟨sz, data⟩] ∧
      r'.m_commits.length = r.m_commits.length + 1 ∧
      (∀ i, i < r.m_commits.length → r'.m_commits[i]? = r.m_commits[i]?) ∧
      r'.m_commits[r.m_commits.length]? = some ⟨sz, data⟩ ∧
      (r.m_oldest_version ≠ 0 →
        r'.m_oldest_version = r.m_oldest_version ∧ r'.m_array_start = r.m_array_start) ∧
      (r.m_oldest_version = 0 → r'.m_oldest_version = v ∧ r'.m_array_start = v) ∧
      r'.m_oldest_version ≠ 0 := by
  have happ : ∀ i, i < r.m_commits.length →
      (r.m_commits ++ [(⟨sz, data⟩ : CommitEntry)])[i]? = r.m_commits[i]? :=
    fun i hi => List.getElem?_append_left hi
  have hlast : (r.m_commits ++ [(⟨sz, data⟩ : CommitEntry)])[r.m_commits.length]?
      = some ⟨sz, data⟩ := by simp
  by_cases hne : r.m_oldest_version = 0
  · refine ⟨{ m_commits := r.m_commits ++ [⟨sz, data⟩], m_array_start := v,
              m_oldest_version := v, m_newest_version := v }, ?_, rfl, rfl, by simp, happ,
      hlast, fun h => absurd hne h, fun _ => ⟨rfl, rfl⟩, by dsimp only; omega⟩
    simp [WriteLogRegistry.add_commit, WriteLogRegistry.holds_some_commits, hne]
  · have hmod : (1 + r.m_newest_version) % VERSION_MOD = v := by
      rw [Nat.mod_eq_of_lt (by have := hc hne; omega)]; have := hc hne; omega
    refine ⟨{ r with m_commits := r.m_commits ++ [⟨sz, data⟩], m_newest_version := v }, ?_,
      rfl, rfl, by simp, happ, hlast, fun _ => ⟨rfl, rfl⟩, fun h => absurd h hne, hne⟩
    simp [WriteLogRegistry.add_commit, WriteLogRegistry.holds_some_commits, hne, hmod]

/-- C10, at the commit of version 4 on the registry holding the versions 1, 2, 3. -/
theorem C10_add_commit_postcondition_witness :
    1 ≤ 4 ∧ 4 < VERSION_MOD ∧
    (sample_abc.m_oldest_version ≠ 0 → 4 = sample_abc.m_newest_version + 1) ∧
    ∃ r', sample_abc.add_commit 4 104 1 = .ok r' ∧
      r'.m_newest_version = 4 ∧
      r'.m_commits = sample_abc.m_commits ++ [⟨1, 104⟩] ∧
      r'.m_commits.length = sample_abc.m_commits.length + 1 ∧
      (∀ i, i < sample_abc.m_commits.length → r'.m_commits[i]? = sample_abc.m_commits[i]?) ∧
      r'.m_commits[sample_abc.m_commits.length]? = some ⟨1, 104⟩ ∧
      (sample_abc.m_oldest_version ≠ 0 →
        r'.m_oldest_version = sample_abc.m_oldest_version ∧
        r'.m_array_start = sample_abc.m_array_start) ∧
      (sample_abc.m_oldest_version = 0 → r'.m_oldest_version = 4 ∧ r'.m_array_start = 4) ∧
      r'.m_oldest_version ≠ 0 :=
  ⟨by decide, by decide, fun _ => rfl,
    C10_add_commit_postcondition sample_abc 4 104 1 (by decide) (by decide) (fun _ => rfl)⟩

/-- C11 (postcondition of the hard reset), as amended: for every reachable registry with a
non-empty window and `newest_version < 2 ^ 64 - 1`, `reset_log_management()` returns, after
it `oldest_version` and `newest_version` are both 0, and the slot of every entry that was
retained before the call holds a null address and size 0, its non-null address having been
passed to `delete[]`; on a reachable empty window the call changes nothing, so
`newest_version` keeps the value it had. -/
theorem C11_reset_postcondition (r : WriteLogRegistry) (g : Nat → Option CommitEntry)
    (hr : Reachable r g) :
    (r.m_oldest_version ≠ 0 → r.m_newest_version + 1 < VERSION_MOD →
      ∃ r' deleted, r.reset_log_management = .ok (r', deleted) ∧
        r'.m_oldest_version = 0 ∧ r'.m_newest_version = 0 ∧
        ∀ v e, g v = some e →
          r'.m_commits[v - r.m_array_start]? = some ⟨0, 0⟩ ∧
          (e.data ≠ 0 → e.data ∈ deleted)) ∧
    (r.m_oldest_version = 0 → r.reset_log_management = .ok (r, [])) := by
  have h := hr.strongInv
  refine ⟨?_, reset_log_management_empty r⟩
  intro hne hb
  obtain ⟨hw1, hw2, hw3, hw4, hw5⟩ := h.window hne
  refine ⟨_, _, reset_log_management_eq r h.windowInv hne hb, rfl, rfl, ?_⟩
  intro v e hg
  rw [hw5 v] at hg
  by_cases hin : r.m_oldest_version ≤ v ∧ v ≤ r.m_newest_version
  · rw [if_pos hin] at hg
    constructor
    · dsimp only
      rw [zero_range_getElem?]
      have : r.m_oldest_version - r.m_array_start ≤ v - r.m_array_start ∧
          v - r.m_array_start < r.m_oldest_version - r.m_array_start
            + (r.m_newest_version + 1 - r.m_oldest_version) ∧
          v - r.m_array_start < r.m_commits.length := by omega
      rw [if_pos this]
    · intro hd
      exact mem_freed_range _ _ _ (v - r.m_array_start) e (by omega) (by omega) hg hd
  · rw [if_neg hin] at hg
    cases hg

/-- C11, at the registry holding the versions 1, 2, 3. -/
theorem C11_reset_postcondition_witness :
    Reachable sample_abc sample_abc_log ∧
    ((sample_abc.m_oldest_version ≠ 0 → sample_abc.m_newest_version + 1 < VERSION_MOD →
      ∃ r' deleted, sample_abc.reset_log_management = .ok (r', deleted) ∧
        r'.m_oldest_version = 0 ∧ r'.m_newest_version = 0 ∧
        ∀ v e, sample_abc_log v = some e →
          r'.m_commits[v - sample_abc.m_array_start]? = some ⟨0, 0⟩ ∧
          (e.data ≠ 0 → e.data ∈ deleted)) ∧
    (sample_abc.m_oldest_version = 0 →
      sample_abc.reset_log_management = .ok (sample_abc, []))) :=
  ⟨sample_abc_reachable, C11_reset_postcondition sample_abc sample_abc_log sample_abc_reachable⟩

/-- C11 as stated fails in two places.  On the reachable registry left by `add_commit(1)` and
`set_oldest_version_needed(1)` the window is empty and `newest_version` is 1; the reset
skips its whole body and returns with `newest_version` still 1, not 0.  On the reachable
registry seeded at version `2 ^ 64 - 1` the loop of the reset releases the one slot, its
counter wraps to 0, and the assertion of `to_index` fails: the reset does not return. -/
theorem C11_reset_postcondition_counterexample :
    (Reachable sample_released sample_released_log ∧
      sample_released.reset_log_management = .ok (sample_released, []) ∧
      sample_released.m_newest_version = 1) ∧
    (Reachable (sample_seeded 18446744073709551615) (sample_seeded_log 18446744073709551615) ∧
      (sample_seeded 18446744073709551615).reset_log_management = .error .assertion) :=
  ⟨⟨sample_released_reachable, rfl, rfl⟩,
    ⟨sample_seeded_reachable _ (by decide) (by decide), rfl⟩⟩

/-- C12 (compaction policy), as amended: for every registry satisfying the window invariant
with a non-empty window and every `k` with `oldest_version - 1 <= k < newest_version`, let
`p = (k + 1) - m_array_start` and `s` the length of the backing vector before the call.
`set_oldest_version_needed(k)` returns and sets `oldest_version = k + 1`; it compacts if and
only if `2 * p > s`, which is the code's test `p > s >> 1`; when it compacts, the new vector
has length exactly `newest_version - k`, holds the old slots `p .. p + (newest_version - k)
- 1` in order, and `m_array_start = k + 1`; when it does not, `m_array_start` and the length
of the vector are unchanged. -/
theorem C12_compaction_policy (r : WriteLogRegistry) (k : Nat)
    (hinv : WindowInv r) (ht : Typed r) (hne : r.m_oldest_version ≠ 0)
    (hlo : r.m_oldest_version ≤ k + 1) (hk : k < r.m_newest_version) :
    ∃ r' deleted, r.set_oldest_version_needed k = .ok (r', deleted) ∧
      r'.m_oldest_version = k + 1 ∧ r'.m_newest_version = r.m_newest_version ∧
      (k + 1 - r.m_array_start > r.m_commits.length / 2 ↔
        2 * (k + 1 - r.m_array_start) > r.m_commits.length) ∧
      (2 * (k + 1 - r.m_array_start) > r.m_commits.length →
        r'.m_commits.length = r.m_newest_version - k ∧
        r'.m_commits = (r.m_commits.drop (k + 1 - r.m_array_start)).take
          (r.m_newest_version - k) ∧
        (∀ i, i < r.m_newest_version - k →
          r'.m_commits[i]? = r.m_commits[k + 1 - r.m_array_start + i]?) ∧
        r'.m_array_start = k + 1) ∧
      (¬ 2 * (k + 1 - r.m_array_start) > r.m_commits.length →
        r'.m_array_start = r.m_array_start ∧ r'.m_commits.length = r.m_commits.length) := by
  obtain ⟨ht1, ht2, ht3, ht4⟩ := ht
  obtain ⟨h1, h2, h3⟩ := hinv.newest_index hne
  have hset := set_oldest_version_needed_eq r k hinv hne ht4 ht3 hlo (by omega) (by omega)
  have hkn : k ≠ r.m_newest_version := by omega
  have hidx : r.m_oldest_version - r.m_array_start + (k + 1 - r.m_oldest_version)
      = k + 1 - r.m_array_start := by omega
  have hdrop := zero_range_drop r.m_commits (r.m_oldest_version - r.m_array_start)
    (k + 1 - r.m_oldest_version)
  rw [hidx] at hdrop
  have hhalf : k + 1 - r.m_array_start > r.m_commits.length / 2 ↔
      2 * (k + 1 - r.m_array_start) > r.m_commits.length := by omega
  refine ⟨(advance_result r k).1, (advance_result r k).2, hset, ?_, ?_, hhalf, ?_, ?_⟩
  · rw [advance_result_oldest, if_neg hkn]
  · exact advance_result_newest r k
  · intro hc
    have hc' := hhalf.mpr hc
    have hcom : (advance_result r k).1.m_commits
        = (r.m_commits.drop (k + 1 - r.m_array_start)).take (r.m_newest_version - k) := by
      simp only [advance_result, hkn, if_false, hc', if_true, hdrop]
    have hst : (advance_result r k).1.m_array_start = k + 1 := by
      simp only [advance_result, hkn, if_false, hc', if_true]
    refine ⟨?_, hcom, ?_, hst⟩
    · rw [hcom, List.length_take, List.length_drop]
      omega
    · intro i hi
      rw [hcom, List.getElem?_take_of_lt hi, List.getElem?_drop]
  · intro hc
    have hc' : ¬ k + 1 - r.m_array_start > r.m_commits.length / 2 := fun h => hc (hhalf.mp h)
    constructor
    · simp only [advance_result, hkn, if_false, hc']
    · simp only [advance_result, hkn, if_false, hc', zero_range_length]

/-- C12, at the registry holding the versions 1, 2, 3 and the watermark 2, which compacts. -/
theorem C12_compaction_policy_witness :
    WindowInv sample_abc ∧ Typed sample_abc ∧ sample_abc.m_oldest_version ≠ 0 ∧
    sample_abc.m_oldest_version ≤ 2 + 1 ∧ 2 < sample_abc.m_newest_version ∧
    ∃ r' deleted, sample_abc.set_oldest_version_needed 2 = .ok (r', deleted) ∧
      r'.m_oldest_version = 2 + 1 ∧ r'.m_newest_version = sample_abc.m_newest_version ∧
      (2 + 1 - sample_abc.m_array_start > sample_abc.m_commits.length / 2 ↔
        2 * (2 + 1 - sample_abc.m_array_start) > sample_abc.m_commits.length) ∧
      (2 * (2 + 1 - sample_abc.m_array_start) > sample_abc.m_commits.length →
        r'.m_commits.length = sample_abc.m_newest_version - 2 ∧
        r'.m_commits = (sample_abc.m_commits.drop (2 + 1 - sample_abc.m_array_start)).take
          (sample_abc.m_newest_version - 2) ∧
        (∀ i, i < sample_abc.m_newest_version - 2 →
          r'.m_commits[i]? = sample_abc.m_commits[2 + 1 - sample_abc.m_array_start + i]?) ∧
        r'.m_array_start = 2 + 1) ∧
      (¬ 2 * (2 + 1 - sample_abc.m_array_start) > sample_abc.m_commits.length →
        r'.m_array_start = sample_abc.m_array_start ∧
        r'.m_commits.length = sample_abc.m_commits.length) :=
  ⟨sample_abc_windowInv, by decide, by decide, by decide, by decide,
    C12_compaction_policy sample_abc 2 sample_abc_windowInv (by decide) (by decide)
      (by decide) (by decide)⟩

/-- C12 as stated fails on an empty window: the registry left by `add_commit(1)` and
`set_oldest_version_needed(1)` satisfies the window invariant, `k = 0` lies in
`[oldest_version - 1, newest_version)`, and `set_oldest_version_needed(0)` returns at its
first test without setting `oldest_version` to `k + 1 = 1`. -/
theorem C12_compaction_policy_counterexample :
    WindowInv sample_released ∧
    sample_released.m_oldest_version ≤ 0 + 1 ∧ 0 < sample_released.m_newest_version ∧
    sample_released.set_oldest_version_needed 0 = .ok (sample_released, []) ∧
    sample_released.m_oldest_version ≠ 0 + 1 :=
  ⟨fun h => absurd rfl h, by decide, by decide, rfl, by decide⟩

/-- C15 (bounded storage): in every reachable state the backing vector has length 0 when the
window is empty; when the window is non-empty its length is
`newest_version - m_array_start + 1` and at most twice the number of retained versions,
`2 * (newest_version - oldest_version + 1)`.  The bound follows the watermark: whenever
`set_oldest_version_needed(k)` returns on a non-empty window, for `k` in
`[oldest_version - 1, newest_version]`, the window afterwards starts at `k + 1` (or is empty,
for `k = newest_version`), the vector is no longer than before and at most
`2 * (newest_version - k)` long, twice the number of versions still retained, so it is
strictly shorter than before whenever fewer than half as many versions as it had slots are
retained; and the call does return for every such `k` below `2 ^ 64 - 1`. -/
theorem C15_bounded_storage (r : WriteLogRegistry) (g : Nat → Option CommitEntry)
    (hr : Reachable r g) :
    (r.m_oldest_version = 0 → r.m_commits.length = 0) ∧
    (r.m_oldest_version ≠ 0 →
      r.m_commits.length ≤ 2 * (r.m_newest_version - r.m_oldest_version + 1) ∧
      r.m_commits.length = r.m_newest_version - r.m_array_start + 1) ∧
    (∀ k r' deleted, r.m_oldest_version ≠ 0 → r.m_oldest_version ≤ k + 1 →
      k ≤ r.m_newest_version → r.set_oldest_version_needed k = .ok (r', deleted) →
      r'.m_newest_version = r.m_newest_version ∧
      r'.m_oldest_version = (if k = r.m_newest_version then 0 else k + 1) ∧
      r'.m_commits.length ≤ 2 * (r.m_newest_version - k) ∧
      r'.m_commits.length ≤ r.m_commits.length ∧
      (k < r.m_newest_version →
        r'.m_commits.length = r.m_newest_version - r'.m_array_start + 1) ∧
      (2 * (r.m_newest_version - k) < r.m_commits.length →
        r'.m_commits.length < r.m_commits.length)) ∧
    (∀ k, r.m_oldest_version ≠ 0 → r.m_oldest_version ≤ k + 1 → k ≤ r.m_newest_version →
      k + 1 < VERSION_MOD →
      ∃ r' deleted, r.set_oldest_version_needed k = .ok (r', deleted)) := by
  have h := hr.strongInv
  refine ⟨hr.storage_bound.1, hr.storage_bound.2, ?_, ?_⟩
  · intro k r' deleted hne hlo hhi hset
    have hr' := Reachable.set_oldest_version_needed r g k r' deleted hr hlo hhi hset
    have heq := h.advance_eq k r' deleted hne hlo hhi hset
    have hnew : r'.m_newest_version = r.m_newest_version := by
      rw [heq]; exact advance_result_newest r k
    have hold : r'.m_oldest_version = (if k = r.m_newest_version then 0 else k + 1) := by
      rw [heq]; exact advance_result_oldest r k
    have hle : r'.m_commits.length ≤ r.m_commits.length := by
      rw [heq]; exact advance_result_length_le r k
    obtain ⟨hb0, hb1⟩ := hr'.storage_bound
    have hbound : r'.m_commits.length ≤ 2 * (r.m_newest_version - k) := by
      by_cases hkn : k = r.m_newest_version
      · rw [if_pos hkn] at hold
        rw [hb0 hold]
        exact Nat.zero_le _
      · rw [if_neg hkn] at hold
        have := (hb1 (by omega)).1
        rw [hold, hnew] at this
        omega
    refine ⟨hnew, hold, hbound, hle, ?_, fun hlt => by omega⟩
    intro hkn
    have hkn' : k ≠ r.m_newest_version := by omega
    rw [if_neg hkn'] at hold
    have := (hb1 (by omega)).2
    rw [hnew] at this
    exact this
  · intro k hne hlo hhi hk
    exact ⟨_, _, h.set_oldest_version_needed_ok k hne hlo hhi hk⟩

/-- C15, at the registry holding the versions 1 to 4: the advance to the watermark 3 retains
one version and leaves a vector of length 1 instead of 4. -/
theorem C15_bounded_storage_witness :
    Reachable sample_four sample_four_log ∧
    sample_four.set_oldest_version_needed 3
      = .ok ({ m_commits := [⟨4, 104⟩], m_array_start := 4, m_oldest_version := 4,
               m_newest_version := 4 }, [101, 102, 103]) ∧
    ((sample_four.m_oldest_version = 0 → sample_four.m_commits.length = 0) ∧
    (sample_four.m_oldest_version ≠ 0 →
      sample_four.m_commits.length
        ≤ 2 * (sample_four.m_newest_version - sample_four.m_oldest_version + 1) ∧
      sample_four.m_commits.length
        = sample_four.m_newest_version - sample_four.m_array_start + 1) ∧
    (∀ k r' deleted, sample_four.m_oldest_version ≠ 0 →
      sample_four.m_oldest_version ≤ k + 1 → k ≤ sample_four.m_newest_version →
      sample_four.set_oldest_version_needed k = .ok (r', deleted) →
      r'.m_newest_version = sample_four.m_newest_version ∧
      r'.m_oldest_version = (if k = sample_four.m_newest_version then 0 else k + 1) ∧
      r'.m_commits.length ≤ 2 * (sample_four.m_newest_version - k) ∧
      r'.m_commits.length ≤ sample_four.m_commits.length ∧
      (k < sample_four.m_newest_version →
        r'.m_commits.length = sample_four.m_newest_version - r'.m_array_start + 1) ∧
      (2 * (sample_four.m_newest_version - k) < sample_four.m_commits.length →
        r'.m_commits.length < sample_four.m_commits.length)) ∧
    (∀ k, sample_four.m_oldest_version ≠ 0 → sample_four.m_oldest_version ≤ k + 1 →
      k ≤ sample_four.m_newest_version → k + 1 < VERSION_MOD →
      ∃ r' deleted, sample_four.set_oldest_version_needed k = .ok (r', deleted))) :=
  ⟨sample_four_reachable, rfl,
    C15_bounded_storage sample_four sample_four_log sample_four_reachable⟩

/-- C16 (index safety of the watermark advance), as amended: for every registry satisfying
the window invariant together with length `= newest_version - m_array_start + 1`, and every
`k` with `oldest_version - 1 <= k <= newest_version` and `k < 2 ^ 64 - 1`, inside
`set_oldest_version_needed(k)` every `to_index` call (on the versions `oldest_version .. k`,
on `k + 1` and on `newest_version`) passes its assertion, every index lies below the length
of the vector, the copy range `[begin, end)` of a compaction satisfies
`begin <= end <= length`, and the call returns. -/
theorem C16_advance_index_safety (r : WriteLogRegistry) (k : Nat)
    (hinv : WindowInv r) (ht : Typed r)
    (hlen : r.m_commits.length = r.m_newest_version - r.m_array_start + 1)
    (hlo : r.m_oldest_version ≤ k + 1) (hhi : k ≤ r.m_newest_version)
    (hk : k + 1 < VERSION_MOD) :
    (r.m_oldest_version ≠ 0 →
      (∀ v, r.m_oldest_version ≤ v → v ≤ k →
        ∃ idx, r.to_index v = .ok idx ∧ idx < r.m_commits.length) ∧
      (k < r.m_newest_version →
        ∃ first last, r.to_index (k + 1) = .ok first ∧
          r.to_index r.m_newest_version = .ok last ∧
          first ≤ last + 1 ∧ last + 1 ≤ r.m_commits.length ∧
          last + 1 = r.m_commits.length)) ∧
    ∃ r' deleted, r.set_oldest_version_needed k = .ok (r', deleted) := by
  obtain ⟨ht1, ht2, ht3, ht4⟩ := ht
  constructor
  · intro hne
    obtain ⟨h1, h2, h3⟩ := hinv.newest_index hne
    constructor
    · intro v hv1 hv2
      refine ⟨v - r.m_array_start, ?_, by omega⟩
      have : v ≥ r.m_array_start := by omega
      simp [WriteLogRegistry.to_index, this]
    · intro hkn
      refine ⟨k + 1 - r.m_array_start, r.m_newest_version - r.m_array_start, ?_, ?_,
        by omega, by omega, by omega⟩
      · have : k + 1 ≥ r.m_array_start := by omega
        simp [WriteLogRegistry.to_index, this]
      · have : r.m_newest_version ≥ r.m_array_start := by omega
        simp [WriteLogRegistry.to_index, this]
  · by_cases hne : r.m_oldest_version = 0
    · refine ⟨r, [], ?_⟩
      simp [WriteLogRegistry.set_oldest_version_needed, WriteLogRegistry.holds_some_commits,
        hne]
    · exact ⟨_, _, set_oldest_version_needed_eq r k hinv hne ht4 ht3 hlo hhi hk⟩

/-- C16, at the registry holding the versions 1, 2, 3 and the watermark 2. -/
theorem C16_advance_index_safety_witness :
    WindowInv sample_abc ∧ Typed sample_abc ∧
    sample_abc.m_commits.length
      = sample_abc.m_newest_version - sample_abc.m_array_start + 1 ∧
    sample_abc.m_oldest_version ≤ 2 + 1 ∧ 2 ≤ sample_abc.m_newest_version ∧
    2 + 1 < VERSION_MOD ∧
    ((sample_abc.m_oldest_version ≠ 0 →
      (∀ v, sample_abc.m_oldest_version ≤ v → v ≤ 2 →
        ∃ idx, sample_abc.to_index v = .ok idx ∧ idx < sample_abc.m_commits.length) ∧
      (2 < sample_abc.m_newest_version →
        ∃ first last, sample_abc.to_index (2 + 1) = .ok first ∧
          sample_abc.to_index sample_abc.m_newest_version = .ok last ∧
          first ≤ last + 1 ∧ last + 1 ≤ sample_abc.m_commits.length ∧
          last + 1 = sample_abc.m_commits.length)) ∧
    ∃ r' deleted, sample_abc.set_oldest_version_needed 2 = .ok (r', deleted)) :=
  ⟨sample_abc_windowInv, by decide, by decide, by decide, by decide, by decide,
    C16_advance_index_safety sample_abc 2 sample_abc_windowInv (by decide) (by decide)
      (by decide) (by decide) (by decide)⟩

/-- C16 as stated fails at `k = newest_version = 2 ^ 64 - 1`: the registry seeded at that
version satisfies the window invariant and has length `1 = newest_version - m_array_start
+ 1`; in `set_oldest_version_needed(2 ^ 64 - 1)` the loop releases the slot of the one
version, its counter wraps to 0, the test `version <= last_to_clean` still holds, and
`to_index(0)` fails its assertion `version >= m_array_start`. -/
theorem C16_advance_index_safety_counterexample :
    WindowInv (sample_seeded 18446744073709551615) ∧
    Typed (sample_seeded 18446744073709551615) ∧
    (sample_seeded 18446744073709551615).m_commits.length
      = (sample_seeded 18446744073709551615).m_newest_version
        - (sample_seeded 18446744073709551615).m_array_start + 1 ∧
    (sample_seeded 18446744073709551615).m_oldest_version ≤ 18446744073709551615 + 1 ∧
    18446744073709551615 ≤ (sample_seeded 18446744073709551615).m_newest_version ∧
    (sample_seeded 18446744073709551615).to_index 0 = .error .assertion ∧
    (sample_seeded 18446744073709551615).set_oldest_version_needed 18446744073709551615
      = .error .assertion :=
  ⟨(sample_seeded_reachable _ (by decide) (by decide)).strongInv.windowInv, by decide,
    by decide, by decide, by decide, rfl, rfl⟩

/-- C14 (directory sharing): in every reachable directory, a `get(x)` followed by a second
`get(x)` returns the same registry pointer and the second call does not change the map; a
`get` of an absent path returns the new registry, inserts exactly one mapping and leaves the
mapping of every other path unchanged, and a `get` of a mapped path changes nothing; and for
two paths `a != b` neither of which was installed by `add`, `get(a)` and then `get(b)` return
distinct pointers, the addresses `new` returns being distinct from each other and from the
registries the directory constructed and still maps. -/
theorem C14_directory_sharing (d : RegistryRegistry) (installed : String → Bool)
    (hd : DirReachable d installed) (a b : String) (fresh_a fresh_b : Nat)
    (hab : a ≠ b) (ha : installed a = false) (hb : installed b = false)
    (hnew : fresh_a ≠ fresh_b)
    (hfresh : ∀ q p, installed q = false → map_find d.m_registries q = some p →
      p ≠ fresh_a ∧ p ≠ fresh_b) :
    (∀ (x : String) (f1 f2 : Nat),
      (d.get x f1).2.get x f2 = ((d.get x f1).1, (d.get x f1).2)) ∧
    (∀ (x : String) (f : Nat), map_find d.m_registries x = none →
      (d.get x f).1 = f ∧ map_find (d.get x f).2.m_registries x = some f ∧
      (∀ y, y ≠ x → map_find (d.get x f).2.m_registries y = map_find d.m_registries y) ∧
      (d.get x f).2.m_registries.length = d.m_registries.length + 1) ∧
    (∀ (x : String) (f p : Nat), map_find d.m_registries x = some p → d.get x f = (p, d)) ∧
    (d.get a fresh_a).1 ≠ ((d.get a fresh_a).2.get b fresh_b).1 := by
  refine ⟨?_, ?_, ?_, ?_⟩
  · intro x f1 f2
    exact get_of_find _ x f2 _ (get_find_self d x f1)
  · intro x f hx
    refine ⟨by simp [RegistryRegistry.get, hx], ?_, fun y hy => get_find_ne d x y f hy, ?_⟩
    · have h := get_find_self d x f
      simp only [RegistryRegistry.get, hx] at h ⊢
      exact h
    · simp [RegistryRegistry.get, hx, map_assign, map_erase_absent _ _ hx]
  · intro x f p hx
    exact get_of_find d x f p hx
  · have h1 := DirReachable.get d installed a fresh_a hd
      (fun q p hq hp => (hfresh q p hq hp).1)
    have h2 := DirReachable.get _ _ b fresh_b h1 (by
      intro q p hq hp
      by_cases hqa : q = a
      · rw [hqa, get_find_self] at hp
        cases hp
        cases hfind : map_find d.m_registries a with
        | none => simp [RegistryRegistry.get, hfind, hnew]
        | some p0 =>
          simp only [RegistryRegistry.get, hfind]
          exact (hfresh a p0 ha hfind).2
      · rw [get_find_ne _ _ _ _ hqa] at hp
        simp only [hqa, false_and, if_false] at hq
        exact (hfresh q p hq hp).2)
    refine h2.distinct a b _ _ hab ?_ ?_ ?_ (get_find_self _ b fresh_b)
    · have hab' : ¬ (a = b) := hab
      simp only [hab', false_and, if_false]
      by_cases hfind : map_find d.m_registries a = none
      · simp [hfind]
      · simp [hfind, ha]
    · by_cases hfind : map_find (d.get a fresh_a).2.m_registries b = none
      · simp [hfind]
      · have hba : ¬ (b = a) := fun h => hab h.symm
        simp [hfind, hba, hb]
    · rw [get_find_ne _ _ _ _ hab]
      exact get_find_self d a fresh_a

/-- C14, at the empty directory and the paths "/db/a" and "/db/b". -/
theorem C14_directory_sharing_witness :
    DirReachable RegistryRegistry.globalRegistry (fun _ => false) ∧
    "/db/a" ≠ "/db/b" ∧ (1000 : Nat) ≠ 2000 ∧
    ((∀ (x : String) (f1 f2 : Nat),
      (RegistryRegistry.globalRegistry.get x f1).2.get x f2
        = ((RegistryRegistry.globalRegistry.get x f1).1,
           (RegistryRegistry.globalRegistry.get x f1).2)) ∧
    (∀ (x : String) (f : Nat),
      map_find RegistryRegistry.globalRegistry.m_registries x = none →
      (RegistryRegistry.globalRegistry.get x f).1 = f ∧
      map_find (RegistryRegistry.globalRegistry.get x f).2.m_registries x = some f ∧
      (∀ y, y ≠ x → map_find (RegistryRegistry.globalRegistry.get x f).2.m_registries y
        = map_find RegistryRegistry.globalRegistry.m_registries y) ∧
      (RegistryRegistry.globalRegistry.get x f).2.m_registries.length
        = RegistryRegistry.globalRegistry.m_registries.length + 1) ∧
    (∀ (x : String) (f p : Nat),
      map_find RegistryRegistry.globalRegistry.m_registries x = some p →
      RegistryRegistry.globalRegistry.get x f = (p, RegistryRegistry.globalRegistry)) ∧
    (RegistryRegistry.globalRegistry.get "/db/a" 1000).1
      ≠ ((RegistryRegistry.globalRegistry.get "/db/a" 1000).2.get "/db/b" 2000).1) :=
  ⟨DirReachable.init, by decide, by decide,
    C14_directory_sharing RegistryRegistry.globalRegistry (fun _ => false) DirReachable.init
      "/db/a" "/db/b" 1000 2000 (by decide) rfl rfl (by decide)
      (fun q p _ hp => by simp [RegistryRegistry.globalRegistry, map_find] at hp)⟩

/-- C13 (the collector's commit hands over exactly the appended bytes): for every collector,
every growth behaviour of the buffer, every `prior_version` and every sequence of appends
`d1, ..., dn` made after `do_begin_write_transact`, the appends return without touching the
registry; the cursor is then `|d1| + ... + |dn|` bytes after the start of the block and the
block starts with `d1 ++ ... ++ dn`; and `do_commit_write_transact(prior_version)` is the
call `add_commit(prior_version + 1, block, |d1| + ... + |dn|)` on the collector's registry
(the sum being the 64-bit one, the plain one for `prior_version < 2 ^ 64 - 1`), returns that
version when `add_commit` returns, and the registry then holds that entry at its tail. -/
theorem C13_commit_hands_over_appended_bytes (g : Growth) (c : WriteLogCollector)
    (ds : List (List Nat)) (prior_version : Nat) :
    ∃ c2, append_all g c.do_begin_write_transact ds = .ok c2 ∧
      c2.m_registry = c.m_registry ∧
      c2.m_transact_log_free_begin - c2.m_transact_log_buffer.data
        = (ds.map List.length).sum ∧
      c2.m_transact_log_buffer.m_bytes.take (ds.map List.length).sum = ds.flatten ∧
      c2.do_commit_write_transact prior_version =
        (match c.m_registry.add_commit ((prior_version + 1) % VERSION_MOD)
            c2.m_transact_log_buffer.data (ds.map List.length).sum with
        | .error e => .error e
        | .ok registry =>
          .ok ((prior_version + 1) % VERSION_MOD,
               { c2 with m_transact_log_buffer := { m_data := 0, m_bytes := [] },
                         m_registry := registry })) ∧
      (prior_version + 1 < VERSION_MOD →
        (prior_version + 1) % VERSION_MOD = prior_version + 1) ∧
      (∀ version c3, c2.do_commit_write_transact prior_version = .ok (version, c3) →
        version = (prior_version + 1) % VERSION_MOD ∧
        c3.m_registry.m_newest_version = version ∧
        c3.m_registry.m_commits = c.m_registry.m_commits ++
          [⟨(ds.map List.length).sum, c2.m_transact_log_buffer.data⟩]) := by
  obtain ⟨hb, hreg0⟩ := begin_collecting c
  obtain ⟨c2, happ, hcol, hreg⟩ := append_all_collecting g ds _ [] hb
  rw [List.nil_append] at hcol
  have hlen : ds.flatten.length = (ds.map List.length).sum := List.length_flatten ds
  have hcommit := commit_collecting c2 ds.flatten prior_version hcol
  obtain ⟨h1, h2, h3⟩ := hcol
  rw [hlen] at h1 h2 h3 hcommit
  have hregc : c2.m_registry = c.m_registry := hreg.trans hreg0
  rw [hregc] at hcommit
  refine ⟨c2, happ, hregc, ?_, h3, hcommit, fun h => Nat.mod_eq_of_lt h, ?_⟩
  · simp only [Buffer.data]; omega
  · intro version c3 hok
    rw [hcommit] at hok
    cases hadd : c.m_registry.add_commit ((prior_version + 1) % VERSION_MOD)
        c2.m_transact_log_buffer.m_data (ds.map List.length).sum with
    | error e => rw [hadd] at hok; cases hok
    | ok registry =>
      rw [hadd] at hok
      simp only [Except.ok.injEq, Prod.mk.injEq] at hok
      obtain ⟨hv, hc3⟩ := hok
      obtain ⟨ha1, ha2⟩ := add_commit_ok_commits _ _ _ _ _ hadd
      rw [← hc3, ← hv]
      exact ⟨rfl, ha2, ha1⟩

/-- C17 (rollback discards): for every collector, registry and growth behaviour of the
buffer and all byte sequences `A` and `B`, after `do_begin_write_transact` and `append(A)`
the call `do_rollback_write_transact` forwards the range of the `|A|` written bytes and
leaves the collector and its registry as they were (no `add_commit` is made); after a
following `do_begin_write_transact` and `append(B)` the cursor is `|B|` bytes after the
start of the block, the block starts with `B`, and `do_commit_write_transact(prior)` is the
call `add_commit(prior + 1, block, |B|)`: the payload is `B` alone. -/
theorem C17_rollback_discards (g : Growth) (c : WriteLogCollector) (A B : List Nat)
    (prior_version : Nat) :
    ∃ c1 c2, c.do_begin_write_transact.do_transact_log_append g A = .ok c1 ∧
      c1.m_registry = c.m_registry ∧
      c1.do_rollback_write_transact.2 = c1 ∧
      c1.do_rollback_write_transact.2.m_registry = c.m_registry ∧
      c1.do_rollback_write_transact.1
        = (c1.m_transact_log_buffer.data, c1.m_transact_log_buffer.data + A.length) ∧
      c1.do_rollback_write_transact.2.do_begin_write_transact.do_transact_log_append g B
        = .ok c2 ∧
      c2.m_registry = c.m_registry ∧
      c2.m_transact_log_free_begin - c2.m_transact_log_buffer.data = B.length ∧
      c2.m_transact_log_buffer.m_bytes.take B.length = B ∧
      c2.do_commit_write_transact prior_version =
        (match c.m_registry.add_commit ((prior_version + 1) % VERSION_MOD)
            c2.m_transact_log_buffer.data B.length with
        | .error e => .error e
        | .ok registry =>
          .ok ((prior_version + 1) % VERSION_MOD,
               { c2 with m_transact_log_buffer := { m_data := 0, m_bytes := [] },
                         m_registry := registry })) := by
  obtain ⟨hb, hreg0⟩ := begin_collecting c
  obtain ⟨c1, happ1, hcol1, hreg1⟩ := append_collecting g _ [] A hb
  rw [List.nil_append] at hcol1
  have hroll : c1.do_rollback_write_transact.2 = c1 := rfl
  obtain ⟨hb2, hreg2⟩ := begin_collecting c1
  obtain ⟨c2, happ2, hcol2, hreg3⟩ := append_collecting g _ [] B hb2
  rw [List.nil_append] at hcol2
  have hregc1 : c1.m_registry = c.m_registry := hreg1.trans hreg0
  have hregc2 : c2.m_registry = c.m_registry := (hreg3.trans hreg2).trans hregc1
  have hcommit := commit_collecting c2 B prior_version hcol2
  rw [hregc2] at hcommit
  obtain ⟨h1, h2, h3⟩ := hcol2
  refine ⟨c1, c2, happ1, hregc1, hroll, hregc1, ?_, happ2, hregc2, ?_, h3, hcommit⟩
  · simp only [WriteLogCollector.do_rollback_write_transact, Buffer.data, hcol1.1]
  · simp only [Buffer.data]; omega

end tightdb
